import Mathlib

/-
Verification of the Repository Indexing & Semantic Retrieval Engine.

Shallow embedding of the core of `backend/app/services/repository_analyzer.py`,
`backend/app/services/vector_store.py` and `backend/app/services/code_analyser.py`:
framework scoring, hybrid chunking, the embedding client, the pgvector store and
the indexing orchestrator.  Python strings are modelled as `List Char`, machine
floats that only feed comparisons and arithmetic are modelled as `ℚ`, and the
database is modelled as an explicit committed row set with an explicit
transaction (pending ops are discarded when a run raises before its commit).
-/

namespace Spec2Proof

/-! ### Python string primitives -/

/-- Python slice `s[a:b]` for non-negative indices on a character list
(out-of-range indices clamp, exactly as in Python). -/
def pySlice (s : List Char) (a b : Nat) : List Char := (s.take b).drop a

/-- Python `str.strip()`: remove leading and trailing whitespace. -/
def pyStrip (s : List Char) : List Char :=
  ((s.dropWhile Char.isWhitespace).reverse.dropWhile Char.isWhitespace).reverse

/-- Python substring test `needle in hay` on character lists. -/
def strIn (needle hay : List Char) : Bool :=
  (List.range (hay.length + 1)).any (fun i => needle.isPrefixOf (hay.drop i))

/-! ### `repository_analyzer.py`: framework detection

`FRAMEWORK_PATTERNS` (lines 16-72) and `RepositoryAnalyzer._detect_framework`
(lines 252-308). -/

/-- One entry of the `FRAMEWORK_PATTERNS` table.  The Python dict key
`package_deps` is optional: frameworks without it never receive the
package.json dependency bonus.  The dict key holding the designated
include substrings is called `imports` in the source; it is renamed
`importSubs` here. -/
structure FrameworkPattern where
  name : String
  files : List String
  importSubs : List String
  indicators : List String
  package_deps : Option (List String)

/-- The `FRAMEWORK_PATTERNS` table, in Python dict insertion order. -/
def FRAMEWORK_PATTERNS : List FrameworkPattern :=
  [ { name := "fastapi",
      files := ["main.py", "app.py"],
      importSubs := ["from fastapi import", "import fastapi"],
      indicators := ["FastAPI(", "@app.get", "@app.post"],
      package_deps := none },
    { name := "flask",
      files := ["app.py", "wsgi.py"],
      importSubs := ["from flask import", "import flask"],
      indicators := ["Flask(", "@app.route"],
      package_deps := none },
    { name := "django",
      files := ["manage.py", "settings.py", "wsgi.py"],
      importSubs := ["from django", "import django"],
      indicators := ["INSTALLED_APPS", "MIDDLEWARE"],
      package_deps := none },
    { name := "react",
      files := ["package.json"],
      importSubs := ["from react", "from 'react'", "import react", "import 'react'"],
      indicators := ["React.Component", "useState", "useEffect"],
      package_deps := some ["react", "react-dom"] },
    { name := "nextjs",
      files := ["next.config.js", "next.config.ts"],
      importSubs := ["from next", "from 'next'"],
      indicators := ["export default function", "getServerSideProps", "getStaticProps"],
      package_deps := some ["next"] },
    { name := "vue",
      files := ["vue.config.js"],
      importSubs := ["from vue", "from 'vue'"],
      indicators := ["createApp", "Vue.component"],
      package_deps := some ["vue"] },
    { name := "angular",
      files := ["angular.json"],
      importSubs := ["from @angular"],
      indicators := ["@Component", "@NgModule"],
      package_deps := some ["@angular/core"] },
    { name := "express",
      files := ["server.js", "app.js"],
      importSubs := ["from express", "from 'express'", "require(\x22express\x22)", "require('express')"],
      indicators := ["express()", "app.listen"],
      package_deps := some ["express"] },
    { name := "spring-boot",
      files := ["pom.xml", "build.gradle"],
      importSubs := ["import org.springframework"],
      indicators := ["@SpringBootApplication", "@RestController", "@Service"],
      package_deps := none },
    { name := "laravel",
      files := ["artisan", "composer.json"],
      importSubs := ["use Illuminate"],
      indicators := ["namespace App\\", "Route::"],
      package_deps := none } ]

/-- A scanned project as `RepositoryAnalyzer` sees it when `_detect_framework`
runs:
* `allFiles` — the basenames of every file under the project root
  (`rglob(file_pattern)` with the literal filename patterns of the table
  matches exactly the files whose basename equals the pattern, at any depth);
* `files_map` — per detected language, the contents of its scanned code files
  in scan order (only allow-listed code extensions are scanned, so e.g.
  `package.json` never appears here);
* `packageDeps` — the keys of `dependencies` merged with `devDependencies` of
  a root `package.json`, or `none` when that file is absent or fails to parse
  (both cases contribute no dependency bonus in the source). -/
structure PyProject where
  allFiles : List String
  files_map : List (String × List (List Char))
  packageDeps : Option (List String)

/-- Score contributed by one scanned file's content: +3 if any designated
include substring occurs (the source breaks out of the pattern loop after
the first match, so at most one +3 per file), plus +1 per matching
code-indicator substring. -/
def contentScore (pat : FrameworkPattern) (content : List Char) : Nat :=
  (if pat.importSubs.any (fun p => strIn p.toList content) then 3 else 0)
    + pat.indicators.countP (fun i => strIn i.toList content)

/-- Total score of one framework candidate, following `_detect_framework`:
+2 per marker filename with at least one `rglob` match; the per-file content
scores over the first 20 files of each language bucket; +5 per designated
package dependency listed in the parsed `package.json`. -/
def frameworkScore (proj : PyProject) (pat : FrameworkPattern) : Nat :=
  let fileScore := 2 * pat.files.countP (fun f => proj.allFiles.contains f)
  let codeScore :=
    (proj.files_map.map (fun lf => ((lf.2.take 20).map (contentScore pat)).sum)).sum
  let depScore :=
    match pat.package_deps, proj.packageDeps with
    | some deps, some projDeps => 5 * deps.countP (fun d => projDeps.contains d)
    | _, _ => 0
  fileScore + codeScore + depScore

/-- `_detect_framework`: keep candidates with positive score, sort descending
by score (Python's stable sort, so ties keep table order) and return the first;
`none` when every score is zero.  The fold keeps the earliest maximum, which is
exactly the head of the stable descending sort. -/
def detectFramework (proj : PyProject) : Option String :=
  let scored := FRAMEWORK_PATTERNS.map (fun p => (p.name, frameworkScore proj p))
  match scored.filter (fun x => 0 < x.2) with
  | [] => none
  | d :: ds => some ((ds.foldl (fun best x => if best.2 < x.2 then x else best) d).1)

/-- The concrete project of the spec's example: the only file is a root
`package.json` whose dependencies list exactly `react`; no code files are
scanned, so `files_map` is empty. -/
def reactOnlyProject : PyProject :=
  { allFiles := ["package.json"],
    files_map := [],
    packageDeps := some ["react"] }

/-- The `react` row of the patterns table (head of the filtered table). -/
def reactPattern : FrameworkPattern :=
  { name := "react",
    files := ["package.json"],
    importSubs := ["from react", "from 'react'", "import react", "import 'react'"],
    indicators := ["React.Component", "useState", "useEffect"],
    package_deps := some ["react", "react-dom"] }

/-! ### `vector_store.py`: byte/char mapping and line numbers -/

/-- `_utf8_byte_offsets` (lines 300-310): entry `i` is the UTF-8 byte offset of
the `i`-th character; the last entry is the total byte length. -/
def utf8ByteOffsets : List Char → List Nat
  | [] => [0]
  | c :: cs => 0 :: (utf8ByteOffsets cs).map (· + c.utf8Size)

/-- `bisect.bisect_left` on a sorted list of naturals: the number of elements
strictly below `x`, which is the leftmost insertion index. -/
def bisectLeft (l : List Nat) (x : Nat) : Nat := l.countP (fun v => v < x)

/-- `_char_index_from_byte` (lines 313-321).  Tree-sitter byte positions are
non-negative, so the Python guard `byte_pos <= 0` reads `bytePos = 0` here. -/
def charIndexFromByte (offs : List Nat) (bytePos : Nat) : Nat :=
  if bytePos = 0 then 0
  else if offs.getLastD 0 ≤ bytePos then offs.length - 1
  else bisectLeft offs bytePos

/-- `newline_positions` as computed in `split_text_to_code_chunks` line 474:
the indices of every newline character of the content. -/
def newlinePositions (content : List Char) : List Nat :=
  (content.enum.filter (fun p => p.2 = '\n')).map Prod.fst

/-- `_line_number_at` (lines 176-180): count of newlines strictly before the
index, plus 1. -/
def lineNumberAt (nl : List Nat) (idx : Nat) : Nat := bisectLeft nl idx + 1

/-! ### `vector_store.py`: syntax-aware tier (tree-sitter) -/

/-- A parsed syntax tree node as tree-sitter hands it to
`_extract_tree_sitter_chunks`: a node type name, byte offsets and children.
The field `node.type` of the source is called `kind` (`type` is reserved). -/
inductive TSNode where
  | mk : String → Nat → Nat → List TSNode → TSNode

def TSNode.kind : TSNode → String
  | .mk k _ _ _ => k

def TSNode.startByte : TSNode → Nat
  | .mk _ s _ _ => s

def TSNode.endByte : TSNode → Nat
  | .mk _ _ e _ => e

def TSNode.children : TSNode → List TSNode
  | .mk _ _ _ c => c

mutual

/-- Well-formedness that real tree-sitter trees satisfy: every node has
`start_byte ≤ end_byte`. -/
def TSNode.wf : TSNode → Bool
  | .mk _ s e cs => decide (s ≤ e) && TSNode.wfList cs

def TSNode.wfList : List TSNode → Bool
  | [] => true
  | c :: cs => TSNode.wf c && TSNode.wfList cs

end

/-- `_get_chunkable_node_types` (lines 271-297); sets become lists, membership
is all that is used. -/
def getChunkableNodeTypes (ext : String) : List String :=
  if ext = ".py" ∨ ext = ".pyw" then
    ["function_definition", "class_definition", "decorated_definition"]
  else if ext = ".js" ∨ ext = ".jsx" then
    ["function_declaration", "class_declaration", "method_definition", "arrow_function",
     "function_expression"]
  else if ext = ".ts" ∨ ext = ".tsx" then
    ["function_declaration", "class_declaration", "method_definition",
     "interface_declaration", "type_alias_declaration"]
  else if ext = ".java" then
    ["class_declaration", "method_declaration", "interface_declaration",
     "constructor_declaration"]
  else if ext = ".go" then
    ["function_declaration", "method_declaration", "type_declaration", "type_spec"]
  else if ext = ".rs" then
    ["function_item", "impl_item", "trait_item", "struct_item", "enum_item", "mod_item"]
  else if ext = ".c" then
    ["function_definition", "struct_specifier", "class_specifier"]
  else if ext = ".cpp" then
    ["function_definition", "class_specifier", "struct_specifier", "namespace_definition"]
  else if ext = ".cc" ∨ ext = ".cxx" ∨ ext = ".h" ∨ ext = ".hpp" then
    ["function_definition", "class_specifier", "struct_specifier"]
  else if ext = ".cs" then
    ["class_declaration", "method_declaration", "interface_declaration",
     "struct_declaration", "namespace_declaration"]
  else []

mutual

/-- The `traverse` closure of `_extract_tree_sitter_chunks` (lines 351-361):
emit a node whose type is chunkable and whose character span is at most twice
the target size, without descending into it; otherwise recurse into the
children.  Spans are `(start_char, end_char, node_type)`. -/
def traverse (targets : List String) (offs : List Nat) (maxChunkChars : Nat) :
    TSNode → List (Nat × Nat × String)
  | .mk k sb eb cs =>
    if k ∈ targets then
      if charIndexFromByte offs eb - charIndexFromByte offs sb ≤ maxChunkChars * 2 then
        [(charIndexFromByte offs sb, charIndexFromByte offs eb, k)]
      else traverseList targets offs maxChunkChars cs
    else traverseList targets offs maxChunkChars cs

def traverseList (targets : List String) (offs : List Nat) (maxChunkChars : Nat) :
    List TSNode → List (Nat × Nat × String)
  | [] => []
  | c :: cs =>
      traverse targets offs maxChunkChars c ++ traverseList targets offs maxChunkChars cs

end

/-- The containment test of `_extract_tree_sitter_chunks` lines 366-372: the
enumerated span `ic` is contained when some span at a different index has
`start >= other_start and end <= other_end`. -/
def containedPred (chunks : List (Nat × Nat × String))
    (ic : Nat × (Nat × Nat × String)) : Bool :=
  chunks.enum.any (fun jd =>
    decide (jd.1 ≠ ic.1) && decide (jd.2.1 ≤ ic.2.1) && decide (ic.2.2.1 ≤ jd.2.2.1))

/-- The containment filter of `_extract_tree_sitter_chunks` (lines 364-374):
keep exactly the spans not contained in a span at another index. -/
def dropContained (chunks : List (Nat × Nat × String)) : List (Nat × Nat × String) :=
  (chunks.enum.filter (fun ic => ! containedPred chunks ic)).map Prod.snd

/-- `_extract_tree_sitter_chunks` (lines 324-374), with the already-parsed
tree as input (the call into the external tree-sitter parser is outside the
embedding; a parse failure surfaces as no tree at the caller).  Python's
stable `chunks.sort(key=lambda x: x[0])` is `List.insertionSort` by the start
offset. -/
def extract_tree_sitter_chunks (content : List Char) (tree : TSNode) (ext : String)
    (maxChunkChars : Nat) : List (Nat × Nat × String) :=
  if getChunkableNodeTypes ext = [] then []
  else
    dropContained
      (List.insertionSort (fun a b => a.1 ≤ b.1)
        (traverse (getChunkableNodeTypes ext) (utf8ByteOffsets content) maxChunkChars tree))

/-! ### `vector_store.py`: universal fallback tier -/

/-- `_file_ext` (lines 183-184): `os.path.splitext(path)[1].lower()`.  The
extension is the suffix of the last path component from its final dot, where
the leading dots of the component never begin an extension. -/
def fileExt (path : String) : String :=
  let base := (path.toList.reverse.takeWhile (fun c => c ≠ '/')).reverse
  let rest := base.drop (base.takeWhile (fun c => c = '.')).length
  let extLen := (rest.reverse.takeWhile (fun c => c ≠ '.')).length
  if extLen < rest.length then
    String.mk ((rest.drop (rest.length - extLen - 1)).map Char.toLower)
  else String.mk []

/-- `_get_separators_for_file` (lines 187-207).  The unused
`text_separators` list of the source is not represented. -/
def getSeparatorsForFile (ext : String) : List (List Char) :=
  if ext = ".md" ∨ ext = ".markdown" ∨ ext = ".rst" ∨ ext = ".txt" then
    ["\n\n".toList, "\n# ".toList, "\n## ".toList, "\n### ".toList, "\n".toList,
     ". ".toList, " ".toList, "".toList]
  else if ext = ".json" ∨ ext = ".yaml" ∨ ext = ".yml" ∨ ext = ".toml" ∨ ext = ".xml"
      ∨ ext = ".html" ∨ ext = ".css" then
    ["\n\n".toList, "\n".toList, ",".toList, " ".toList, "".toList]
  else if ext = ".csv" ∨ ext = ".tsv" ∨ ext = ".log" then
    ["\n".toList, ",".toList, " ".toList, "".toList]
  else
    ["\n\n".toList, "\n".toList, "; ".toList, ", ".toList, " ".toList, "".toList]

/-- The character-level split of `_fallback_recursive_split_spans` (its
`sep == ""` branch, lines 397-408): fixed-width windows of `csize` characters
advancing by `max 1 (csize - overlap)`, keeping only windows whose text is not
whitespace-only.  The loop index `i` strictly increases, bounded by the text
length. -/
def charSplitLoop (csize ov : Nat) (text : List Char) (off : Nat) :
    Nat → Nat → List (Nat × Nat)
  | 0, _ => []
  | fuel + 1, i =>
    if i < text.length then
      if text.length ≤ min text.length (i + csize) then
        (if pyStrip (pySlice text i (min text.length (i + csize))) ≠ []
          then [(off + i, off + min text.length (i + csize))] else [])
      else
        (if pyStrip (pySlice text i (min text.length (i + csize))) ≠ []
          then [(off + i, off + min text.length (i + csize))] else [])
          ++ charSplitLoop csize ov text off fuel (i + max 1 (csize - ov))
    else []

/-- Entry to the character-level split: Python computes
`step = max(1, chunk_size - max(0, chunk_overlap))`; with natural-number
overlap `max 0 ov = ov`.  The structural fuel `text.length` covers every
iteration of the while loop, whose index strictly increases below
`text.length`. -/
def charSplit (csize ov : Nat) (text : List Char) (off : Nat) : List (Nat × Nat) :=
  charSplitLoop csize ov text off text.length 0

/-- Leftmost occurrence index of `sep` in `l` (Python `str.split` scans
occurrences left to right). -/
def findSub (sep l : List Char) : Option Nat :=
  (List.range (l.length + 1)).find? (fun i => sep.isPrefixOf (l.drop i))

/-- Python `text.split(sep)` for non-empty `sep`, by fuel (the fuel
`l.length + 1` always suffices since each found separator consumes at least
one character). -/
def splitPartsAux (sep : List Char) : Nat → List Char → List (List Char)
  | 0, l => [l]
  | fuel + 1, l =>
    match findSub sep l with
    | none => [l]
    | some i => l.take i :: splitPartsAux sep fuel (l.drop (i + sep.length))

def splitParts (sep l : List Char) : List (List Char) :=
  splitPartsAux sep (l.length + 1) l

/-- The piece spans computed from `parts` (lines 414-420): each part keeps the
following separator except the last part. -/
def piecesOfParts (sepLen : Nat) : Nat → List (List Char) → List (Nat × Nat)
  | _, [] => []
  | cursor, [p] => [(cursor, cursor + p.length)]
  | cursor, p :: q :: ps =>
      (cursor, cursor + p.length + sepLen)
        :: piecesOfParts sepLen (cursor + p.length + sepLen) (q :: ps)

/-- What the accumulation loop of the separator branch (lines 422-446) does,
as data: emit a span of the local text, or a request to recurse on a piece
with the remaining separators. -/
inductive Emit where
  | span : Nat → Nat → Emit
  | recur : Nat → Nat → Emit

/-- Line 433: `overlap_start = max(cur_start, cur_end - chunk_overlap) if
chunk_overlap > 0 else cur_end` (the Python int subtraction agrees with the
truncated natural one under the outer `max`). -/
def overlapStart (ov cs ce : Nat) : Nat :=
  if 0 < ov then max cs (ce - ov) else ce

/-- The accumulation loop of `_fallback_recursive_split_spans` lines 422-446
over the piece list, with state `(cur_start, cur_end)`: grow the current chunk
while it fits, otherwise flush it (when non-empty and not whitespace-only),
restart at the overlap position, and recurse on a piece that alone exceeds the
chunk size.  All Python int subtractions compared against `chunk_size ≥ 0`
agree with truncated natural subtraction. -/
def accumEmits (csize ov : Nat) (text : List Char) :
    List (Nat × Nat) → Nat → Nat → List Emit
  | [], cs, ce =>
      if cs < ce ∧ pyStrip (pySlice text cs ce) ≠ [] then [.span cs ce] else []
  | (ps, pe) :: rest, cs, ce =>
      if pe - cs ≤ csize then accumEmits csize ov text rest cs pe
      else
        if pe - overlapStart ov cs ce ≤ csize then
          (if cs < ce ∧ pyStrip (pySlice text cs ce) ≠ [] then [Emit.span cs ce] else [])
            ++ accumEmits csize ov text rest (overlapStart ov cs ce) pe
        else
          (if cs < ce ∧ pyStrip (pySlice text cs ce) ≠ [] then [Emit.span cs ce] else [])
            ++ Emit.recur ps pe :: accumEmits csize ov text rest pe pe

/-- The recursive body `split_recursive` of `_fallback_recursive_split_spans`
(lines 390-450), recursing positionally over the separator list (the source
computes `seps[seps.index(sep) + 1:]`, which is the tail for the duplicate-free
separator lists of `_get_separators_for_file`).  The final no-separator-matched
call `split_recursive(text, [""])` re-checks a false size guard and lands in
the character split, so it is the character split. -/
def splitRec (csize ov : Nat) : List (List Char) → List Char → Nat → List (Nat × Nat)
  | [], text, off =>
    if text.length ≤ csize then
      if pyStrip text ≠ [] then [(off, off + text.length)] else []
    else charSplit csize ov text off
  | sep :: rest, text, off =>
    if text.length ≤ csize then
      if pyStrip text ≠ [] then [(off, off + text.length)] else []
    else if sep = [] then charSplit csize ov text off
    else if strIn sep text then
      (accumEmits csize ov text (piecesOfParts sep.length 0 (splitParts sep text)) 0 0).flatMap
        (fun em =>
          match em with
          | .span s e => [(off + s, off + e)]
          | .recur ps pe => splitRec csize ov rest (pySlice text ps pe) (off + ps))
    else splitRec csize ov rest text off

/-- `_fallback_recursive_split_spans` (lines 377-453). -/
def fallback_recursive_split_spans (content : List Char) (separators : List (List Char))
    (csize ov : Nat) : List (Nat × Nat) :=
  splitRec csize ov separators content 0

/-! ### `vector_store.py`: `split_text_to_code_chunks` -/

/-- One produced chunk dict (lines 491-501 and 569-580).  The
`content_sha256` hash and the `chunk_type`/`splitter` debug keys carry no
verified structure and are omitted. -/
structure ChunkOut where
  path : String
  chunk_index : Nat
  start_line : Nat
  end_line : Nat
  content : List Char

/-- The chunk-building loop shared by both tiers: enumerate the spans (so a
span whose text strips to empty still consumes an index), strip each slice,
drop empties, and compute 1-based line numbers (1 when the file has no
newline). -/
def mkChunks (path : String) (content : List Char) (nl : List Nat)
    (spans : List (Nat × Nat)) : List ChunkOut :=
  spans.enum.filterMap (fun ise =>
    if pyStrip (pySlice content ise.2.1 ise.2.2) = [] then none
    else some
      { path := path,
        chunk_index := ise.1,
        start_line := if nl ≠ [] then lineNumberAt nl ise.2.1 else 1,
        end_line := if nl ≠ [] then lineNumberAt nl ise.2.2 else 1,
        content := pyStrip (pySlice content ise.2.1 ise.2.2) })

/-- The syntax-aware tier of `split_text_to_code_chunks` (lines 477-505):
no chunks when no parser/parse exists, otherwise the chunk dicts built from
the extracted spans (the `node_type` only feeds the omitted debug key). -/
def tier1Chunks (tree : Option TSNode) (path : String) (content : List Char)
    (chunk_chars : Nat) : List ChunkOut :=
  match tree with
  | none => []
  | some t =>
    mkChunks path content (newlinePositions content)
      ((extract_tree_sitter_chunks content t (fileExt path) chunk_chars).map
        (fun x => (x.1, x.2.1)))

/-- The universal-fallback spans of `split_text_to_code_chunks` (lines
507-562): the LangChain spans when that splitter is available and produced
output (`lcDocs` models its output as `(start_index, length)` pairs — both
library branches of the source produce spans of the shape
`(start, start + len(part))`), else the internal recursive splitter. -/
def tier2Spans : Option (List (Nat × Nat)) → String → List Char → Nat → Nat →
    List (Nat × Nat)
  | none, path, content, chunk_chars, ov =>
    fallback_recursive_split_spans content (getSeparatorsForFile (fileExt path)) chunk_chars ov
  | some docs, path, content, chunk_chars, ov =>
    if (docs.map (fun d => (d.1, d.1 + d.2))).isEmpty then
      fallback_recursive_split_spans content (getSeparatorsForFile (fileExt path)) chunk_chars ov
    else docs.map (fun d => (d.1, d.1 + d.2))

/-- `split_text_to_code_chunks` (lines 456-582).  The two external
collaborators are inputs: `tree` is the tree-sitter parse when a parser for
the extension exists and parsing succeeds (`none` otherwise), and `lcDocs`
models the LangChain splitter output (`none` when the library is unavailable
or raised).  The fallback tier runs exactly when the syntax-aware tier
produced no chunks. -/
def split_text_to_code_chunks (tree : Option TSNode) (lcDocs : Option (List (Nat × Nat)))
    (path : String) (content : List Char) (chunk_chars ov : Nat) : List ChunkOut :=
  if (tier1Chunks tree path content chunk_chars).isEmpty then
    mkChunks path content (newlinePositions content)
      (tier2Spans lcDocs path content chunk_chars ov)
  else tier1Chunks tree path content chunk_chars

/-! ### `vector_store.py`: embedding client (`embed_texts_openai`, lines 593-630) -/

/-- An embedding vector; provider floats are modelled as rationals. -/
abbrev Vec := List ℚ

/-- One element of the provider response `resp.data`: a position label within
the submitted batch, and the embedding. -/
structure RespItem where
  index : Nat
  embedding : Vec
deriving DecidableEq

/-- Outcome of one `client.embeddings.create` call: a data list, or a raised
exception. -/
inductive ProviderResp where
  | ok : List RespItem → ProviderResp
  | fail : ProviderResp
deriving DecidableEq

/-- The external provider as an oracle: the response to the `a`-th attempt
(0-based) at the `b`-th batch (0-based). -/
abbrev Provider := Nat → Nat → ProviderResp

/-- Observable side effects of `embed_texts_openai`, in order: constructing
the OpenAI client, one provider call per attempt, and the backoff sleeps. -/
inductive EmbedEvent where
  | clientCreated : EmbedEvent
  | call : Nat → Nat → EmbedEvent
  | sleep : ℚ → EmbedEvent
deriving DecidableEq

/-- The backoff of line 622:
`retry_backoff_sec * (2 ** (attempt - 1)) + 0.1 * attempt`. -/
def sleepSeconds (retryBackoff : ℚ) (attempt : Nat) : ℚ :=
  retryBackoff * 2 ^ (attempt - 1) + attempt / 10

/-- The inner retry loop (lines 610-624), at attempt `a` (number of failures
so far), with `remaining` the retries still allowed
(`remaining = max_retries - a`, kept as a separate structural counter so the
loop computes by reduction).  On failure the attempt counter becomes `a + 1`;
when it would exceed `max_retries` — `remaining = 0` — the exception
propagates (`none`); otherwise the loop sleeps `sleepSeconds` and retries. -/
def attemptLoop (p : Provider) (b : Nat) (rb : ℚ) :
    Nat → Nat → Option (List RespItem) × List EmbedEvent
  | 0, a =>
    match p b a with
    | .ok data => (some data, [.call b a])
    | .fail => (none, [.call b a])
  | rem + 1, a =>
    match p b a with
    | .ok data => (some data, [.call b a])
    | .fail =>
      ((attemptLoop p b rb rem (a + 1)).1,
        .call b a :: .sleep (sleepSeconds rb (a + 1)) :: (attemptLoop p b rb rem (a + 1)).2)

/-- `texts[i : i + batch_size]` grouping of the while loop (lines 608-625),
with a structural fuel that the wrapper instantiates to the list length
(always enough, as every step consumes at least one element).  The source's
loop diverges for `batch_size ≤ 0`; every call site passes a positive batch
size, and the model steps by `max 1 bs`. -/
def toBatchesGo (bs : Nat) : Nat → List (List Char) → List (List (List Char))
  | _, [] => []
  | 0, _ :: _ => []
  | fuel + 1, t :: ts => ((t :: ts).take (max 1 bs)) :: toBatchesGo bs fuel ((t :: ts).drop (max 1 bs))

def toBatches (bs : Nat) (texts : List (List Char)) : List (List (List Char)) :=
  toBatchesGo bs texts.length texts

/-- Per-batch processing: a raised exception aborts the whole loop with no
result; a response is sorted by its position labels (`sorted(resp.data,
key=lambda d: d.index)`, a stable sort) and the embeddings are appended in
that order. -/
def embedBatches (p : Provider) (maxRetries : Nat) (rb : ℚ) :
    List (List (List Char)) → Nat → Option (List Vec) × List EmbedEvent
  | [], _ => (some [], [])
  | _batch :: rest, bIdx =>
    match attemptLoop p bIdx rb maxRetries 0 with
    | (none, ev) => (none, ev)
    | (some data, ev) =>
      match embedBatches p maxRetries rb rest (bIdx + 1) with
      | (none, ev2) => (none, ev ++ ev2)
      | (some vs, ev2) =>
        (some ((List.insertionSort (fun x y => x.index ≤ y.index) data).map
          (fun d => d.embedding) ++ vs), ev ++ ev2)

/-- `embed_texts_openai` (lines 593-630): `none` models the function raising
after some batch exhausts its retries.  The `batch` variable is unused by the
model only in the sense that its content is already inside the oracle's batch
index; the batching itself is explicit. -/
def embed_texts_openai (p : Provider) (texts : List (List Char))
    (batch_size maxRetries : Nat) (retryBackoff : ℚ) :
    Option (List Vec) × List EmbedEvent :=
  if texts = [] then (some [], [])
  else
    ((embedBatches p maxRetries retryBackoff (toBatches batch_size texts) 0).1,
      .clientCreated :: (embedBatches p maxRetries retryBackoff (toBatches batch_size texts) 0).2)

/-! ### `vector_store.py`: pgvector store and search -/

/-- One committed row of `project_code_chunks` (schema lines 100-112; the
serial `id` and `created_at` play no role in the claims and are omitted). -/
structure DBRow where
  project_id : Nat
  path : String
  chunk_index : Nat
  start_line : Option Nat
  end_line : Option Nat
  content : List Char
  embedding : Vec
deriving DecidableEq

abbrev ChunkDB := List DBRow

/-- The transactional session: `committed` is what is visible to other
readers, `pending` the working state of the open transaction.  `db.commit()`
publishes the pending state; a run that raises before committing leaves the
committed state as the session teardown rolls the transaction back. -/
structure Txn where
  committed : ChunkDB
  pending : ChunkDB
deriving DecidableEq

def txnBegin (db : ChunkDB) : Txn := ⟨db, db⟩

/-- `delete_project_chunks` (lines 140-143), as a statement of the open
transaction. -/
def txnDeleteProject (pid : Nat) (t : Txn) : Txn :=
  { t with pending := t.pending.filter (fun r => r.project_id ≠ pid) }

/-- The `execute_values` bulk insert (lines 755-766), as a statement of the
open transaction. -/
def txnInsert (rows : ChunkDB) (t : Txn) : Txn :=
  { t with pending := t.pending ++ rows }

def txnCommit (t : Txn) : ChunkDB := t.pending

def txnRollback (t : Txn) : ChunkDB := t.committed

/-- The rows built at lines 740-753 from the chunk/vector pairs. -/
def chunkRows (pid : Nat) (chunks : List ChunkOut) (vectors : List Vec) : ChunkDB :=
  (chunks.zip vectors).map (fun cv =>
    { project_id := pid, path := cv.1.path, chunk_index := cv.1.chunk_index,
      start_line := some cv.1.start_line, end_line := some cv.1.end_line,
      content := cv.1.content, embedding := cv.2 })

/-- `index_project_chunks_to_pgvector` (lines 645-779) from the point where
the chunk list is built, on the default-configuration path (the default model
`text-embedding-ada-002` has a statically known dimension, line 639, so no
probe embedding happens before the delete).  An empty chunk list returns
success before any statement executes (lines 703-705).  Otherwise the
project's rows are deleted (line 720, a pending statement of the open
transaction), the chunks are embedded (`batch_size=64` default), the count is
checked (line 731), the rows are bulk-inserted and `db.commit()` runs (line
767) — the single commit of delete and insert together.  The boolean result
is `False` when the function raises (embedding exhausted, count mismatch);
the returned `Txn` is the session state at exit: on success the commit has
happened (committed = pending = the new rows), on a raise the delete is still
pending and uncommitted — whether a later commit publishes it or the session
teardown discards it is the caller's doing. -/
def index_project_chunks_to_pgvector (pid : Nat) (chunks : List ChunkOut)
    (p : Provider) (maxRetries : Nat) (rb : ℚ) (db : ChunkDB) : Bool × Txn :=
  if chunks.isEmpty then (true, txnBegin db)
  else
    match (embed_texts_openai p (chunks.map (fun c => c.content)) 64 maxRetries rb).1 with
    | none => (false, txnDeleteProject pid (txnBegin db))
    | some vectors =>
      if vectors.length ≠ chunks.length then
        (false, txnDeleteProject pid (txnBegin db))
      else
        (true, txnBegin (txnCommit (txnInsert (chunkRows pid chunks vectors)
          (txnDeleteProject pid (txnBegin db)))))

/-- A reindex run: the chunk list computed from the files, and the provider
behaviour during that run. -/
abbrev ReindexRun := List ChunkOut × Provider

/-- The committed store after one run whose session is then torn down without
a further commit (anything still pending is rolled back). -/
def applyRun (pid maxRetries : Nat) (rb : ℚ) (db : ChunkDB) (run : ReindexRun) : ChunkDB :=
  ((index_project_chunks_to_pgvector pid run.1 run.2 maxRetries rb db).2).committed

/-- A run that chunks at least one file and embeds successfully with the
right vector count. -/
def runOk (maxRetries : Nat) (rb : ℚ) (run : ReindexRun) : Bool :=
  !run.1.isEmpty &&
    match (embed_texts_openai run.2 (run.1.map (fun c => c.content)) 64 maxRetries rb).1 with
    | none => false
    | some v => v.length = run.1.length

/-- The rows a successful run commits. -/
def runRows (pid maxRetries : Nat) (rb : ℚ) (run : ReindexRun) : ChunkDB :=
  chunkRows pid run.1
    (((embed_texts_openai run.2 (run.1.map (fun c => c.content)) 64 maxRetries rb).1).getD [])

/-- Squared Euclidean distance over the paired coordinates.  The pgvector
operator `<->` of the search SQL (lines 818-827) is the Euclidean distance;
ordering by it coincides with ordering by its square, and the model uses the
square as the reported score. -/
def sqL2 (u v : Vec) : ℚ :=
  ((u.zip v).map (fun x => (x.1 - x.2) * (x.1 - x.2))).sum

/-- A returned search row (the `ChunkRow` dataclass, lines 71-79; the serial
`id` is omitted). -/
structure SearchRow where
  path : String
  start_line : Option Nat
  end_line : Option Nat
  content : List Char
  score : ℚ
deriving DecidableEq

/-- `path LIKE :path_prefix || '%'`. -/
def pathLike (pref : String) (path : String) : Bool :=
  pref.toList.isPrefixOf path.toList

/-- `vector_search_project` (lines 782-844) given the already-embedded query
vector: filter the project's rows (plus the optional LIKE filter; a falsy
empty prefix adds no filter, which coincides with `LIKE '%'`), order by
ascending distance to the query (`ORDER BY embedding <-> q`; the SQL engine
may break ties arbitrarily, realized here by a stable insertion sort), take
`LIMIT k`, and annotate each row with its distance score. -/
def vector_search_project (db : ChunkDB) (pid : Nat) (qvec : Vec) (k : Nat)
    (pathPref : Option String) : List SearchRow :=
  let rows := db.filter (fun r =>
    decide (r.project_id = pid) &&
      match pathPref with
      | some pref => pathLike pref r.path
      | none => true)
  let sorted := List.insertionSort
    (fun a b => sqL2 a.embedding qvec ≤ sqL2 b.embedding qvec) rows
  (sorted.take k).map (fun r =>
    { path := r.path, start_line := r.start_line, end_line := r.end_line,
      content := r.content, score := sqL2 r.embedding qvec })

/-- The cap applied by the API route `search_project_code`
(`api/v1/search.py` line 58): `k = min(int(top_k), 50)`. -/
def searchEffectiveK (top_k : Nat) : Nat := min top_k 50

/-! ### `code_analyser.py`: `run_indexing_workflow` (lines 768-908) -/

/-- The project row fields the orchestrator touches (the other analysis
columns it writes do not interact with the claims). -/
structure ProjectRow where
  preprocessing_status : String
deriving DecidableEq

/-- The database as the orchestrator sees it: the project row (absent when
the id matches nothing) and the committed chunk rows. -/
structure OrchDB where
  project : Option ProjectRow
  chunks : ChunkDB
deriving DecidableEq

/-- Outcomes of the orchestrator's external steps: whether
`analyze_repository` raises, whether `workflow.invoke` raises, the chunk list
the embedding step computes from the files, the provider behaviour, and
whether a `progress_tracker` was passed (the sole caller, `projects.py` lines
280-284, always passes one). -/
structure OrchEnv where
  analysisOk : Bool
  workflowOk : Bool
  chunks : List ChunkOut
  p : Provider
  tracker : Bool

/-- Result of `run_indexing_workflow`: the committed database, whether the
call re-raised, and whether it returned a `success: True` result. -/
structure OrchOutcome where
  db : OrchDB
  raised : Bool
  success : Bool

/-- `run_indexing_workflow` (lines 768-908).  A failure of the analysis or
workflow steps reaches the outer `except` (lines 896-908): the project row, if
any, is marked `failed`, committed, and the exception re-raised.  Otherwise
the project row is updated and marked `completed` and committed (lines
836-857) BEFORE the chunk-embedding step, whose `try/except` (lines 859-877)
swallows any failure — `index_project_chunks_to_pgvector` is called with the
embedding defaults `max_retries=3`, `retry_backoff_sec=1.5`.  After that
step, `progress_tracker.complete` (lines 879-880) runs on the same session:
`ProgressTracker._emit_progress` ends in `self.db.commit()`, which publishes
whatever the embedding step left pending — in particular, after a swallowed
embedding failure, the already-executed delete of the project's prior chunk
rows.  Without a tracker nothing commits after the failure and the session
teardown rolls the pending work back. -/
def run_indexing_workflow (env : OrchEnv) (pid : Nat) (db : OrchDB) : OrchOutcome :=
  if env.analysisOk = false ∨ env.workflowOk = false then
    { db := { db with project := db.project.map (fun pr =>
        { pr with preprocessing_status := "failed" }) },
      raised := true, success := false }
  else
    { db :=
        { project := db.project.map (fun pr =>
            { pr with preprocessing_status := "completed" }),
          chunks :=
            if env.tracker then
              txnCommit (index_project_chunks_to_pgvector pid env.chunks env.p
                3 (3 / 2) db.chunks).2
            else
              txnRollback (index_project_chunks_to_pgvector pid env.chunks env.p
                3 (3 / 2) db.chunks).2 },
      raised := false, success := true }

/-! ### Concrete inputs used by witnesses and counterexamples -/

/-- A provider whose every call raises. -/
def provFail : Provider := fun _ _ => .fail

/-- A provider answering every call with the single embedding `[7]` labelled
position 0. -/
def provSingle : Provider := fun _ _ => .ok [⟨0, [(7 : ℚ)]⟩]

/-- A provider answering with a two-element batch out of submitted order. -/
def provSwapXY : Provider := fun _ _ => .ok [⟨1, [(2 : ℚ)]⟩, ⟨0, [(1 : ℚ)]⟩]

/-- The reference embedding function of the order witness. -/
def fXY : List Char → Vec := fun t => if t = "x".toList then [(1 : ℚ)] else [(2 : ℚ)]

/-- A provider answering with the single embedding `[9]` labelled position 0. -/
def provSingle9 : Provider := fun _ _ => .ok [⟨0, [(9 : ℚ)]⟩]

def chunkX : ChunkOut :=
  { path := "a.py", chunk_index := 0, start_line := 1, end_line := 1,
    content := "x".toList }

def chunkY : ChunkOut :=
  { path := "b.py", chunk_index := 0, start_line := 1, end_line := 1,
    content := "y".toList }

def priorRow : DBRow :=
  { project_id := 1, path := "old.py", chunk_index := 0, start_line := some 1,
    end_line := some 1, content := "old".toList, embedding := [(0 : ℚ)] }

def otherRow : DBRow :=
  { project_id := 2, path := "keep.py", chunk_index := 0, start_line := some 1,
    end_line := some 1, content := "keep".toList, embedding := [(1 : ℚ)] }

def envEmbedFail : OrchEnv :=
  { analysisOk := true, workflowOk := true, chunks := [chunkX], p := provFail,
    tracker := true }

def envAnalysisFail : OrchEnv :=
  { analysisOk := false, workflowOk := true, chunks := [chunkX], p := provSingle,
    tracker := true }

def orchDB0 : OrchDB :=
  { project := some { preprocessing_status := "pending" },
    chunks := [priorRow, otherRow] }

/-- Two successful reindex runs for the witness of the full-replace theorem. -/
def runsW : List ReindexRun := [([chunkX], provSingle), ([chunkY], provSingle9)]

/-- A successful run followed by a run that chunks nothing, for the
zero-chunk counterexample. -/
def runsZ : List ReindexRun := [([chunkX], provSingle), ([], provSingle)]

def dbW : ChunkDB :=
  [ { project_id := 1, path := "b.py", chunk_index := 0, start_line := some 1,
      end_line := some 1, content := "bb".toList, embedding := [(5 : ℚ)] },
    { project_id := 1, path := "a.py", chunk_index := 0, start_line := some 1,
      end_line := some 1, content := "aa".toList, embedding := [(0 : ℚ)] },
    { project_id := 2, path := "c.py", chunk_index := 0, start_line := some 1,
      end_line := some 1, content := "cc".toList, embedding := [(1 : ℚ)] } ]

/-- A module with two sibling function definitions, for the tier-1 witness. -/
def contW : List Char := "def a():\n  pass\n\ndef b():\n  pass\n".toList

def treeW : TSNode :=
  .mk "module" 0 33
    [.mk "function_definition" 0 15 [],
     .mk "function_definition" 17 32 [.mk "function_definition" 19 30 []]]

def extPy : String := ".py"

def pathW : String := "a.py"

/-! ## Theorems -/

/-! ### Shared helper lemmas -/

theorem countP_lt_of_mem_not {α : Type} {p : α → Bool} {l : List α} {x : α}
    (hx : x ∈ l) (hpx : p x = false) : l.countP p < l.length := by
  rcases Nat.lt_or_ge (l.countP p) l.length with h | h
  · exact h
  · have heq : l.countP p = l.length := le_antisymm (List.countP_le_length p) h
    have := (List.countP_eq_length).mp heq x hx
    rw [hpx] at this
    cases this

theorem utf8ByteOffsets_ne_nil (c : List Char) : utf8ByteOffsets c ≠ [] := by
  cases c <;> simp [utf8ByteOffsets]

theorem utf8ByteOffsets_length (c : List Char) :
    (utf8ByteOffsets c).length = c.length + 1 := by
  induction c with
  | nil => simp [utf8ByteOffsets]
  | cons x xs ih => simp [utf8ByteOffsets, ih]

theorem getLastD_mem_of_ne_nil {l : List Nat} (h : l ≠ []) : l.getLastD 0 ∈ l := by
  rw [List.getLastD_eq_getLast?, List.getLast?_eq_getLast l h]
  exact List.getLast_mem h

theorem charIndexFromByte_le (c : List Char) (b : Nat) :
    charIndexFromByte (utf8ByteOffsets c) b ≤ c.length := by
  have hlen := utf8ByteOffsets_length c
  unfold charIndexFromByte
  split
  · omega
  · split
    · omega
    · rename_i h0 hlast
      have hcount := countP_lt_of_mem_not (p := fun v => decide (v < b))
        (getLastD_mem_of_ne_nil (utf8ByteOffsets_ne_nil c))
        (by simp only [decide_eq_false_iff_not]; omega)
      unfold bisectLeft
      omega

theorem charIndexFromByte_mono (c : List Char) {b b' : Nat} (h : b ≤ b') :
    charIndexFromByte (utf8ByteOffsets c) b ≤ charIndexFromByte (utf8ByteOffsets c) b' := by
  have hlen := utf8ByteOffsets_length c
  unfold charIndexFromByte
  split
  · omega
  · rename_i hb0
    have hb'0 : ¬ b' = 0 := by omega
    rw [if_neg hb'0]
    split
    · rename_i hbl
      rw [if_pos (le_trans hbl h)]
    · rename_i hbl
      split
      · rename_i hbl'
        have hcount := countP_lt_of_mem_not (p := fun v => decide (v < b))
          (getLastD_mem_of_ne_nil (utf8ByteOffsets_ne_nil c))
          (by simp only [decide_eq_false_iff_not]; omega)
        unfold bisectLeft
        omega
      · unfold bisectLeft
        exact List.countP_mono_left (fun v _ hv => by
          simp only [decide_eq_true_eq] at hv ⊢
          omega)

theorem pySlice_length {l : List Char} {a b : Nat} (hb : b ≤ l.length) :
    (pySlice l a b).length = b - a := by
  simp [pySlice, List.length_drop, List.length_take]
  omega

/-! ### C9: the byte-to-character mapping is monotone and clamped -/

/-- C9: for every content string and parser byte offsets `sb ≤ eb`, the
mapped character span satisfies `start_char ≤ end_char ≤ len(content)`, and
the content slice has exactly `end_char - start_char` characters (no
clamping occurs, so the slice is within bounds). -/
theorem byte_char_mapping_safe (content : List Char) (sb eb : Nat) (h : sb ≤ eb) :
    charIndexFromByte (utf8ByteOffsets content) sb
        ≤ charIndexFromByte (utf8ByteOffsets content) eb
    ∧ charIndexFromByte (utf8ByteOffsets content) eb ≤ content.length
    ∧ (pySlice content (charIndexFromByte (utf8ByteOffsets content) sb)
          (charIndexFromByte (utf8ByteOffsets content) eb)).length
        = charIndexFromByte (utf8ByteOffsets content) eb
          - charIndexFromByte (utf8ByteOffsets content) sb :=
  ⟨charIndexFromByte_mono content h, charIndexFromByte_le content eb,
    pySlice_length (charIndexFromByte_le content eb)⟩

/-- Witness for C9 at the concrete content `"aé€b"` and byte pair (1, 6). -/
theorem byte_char_mapping_safe_witness :
    1 ≤ 6
    ∧ (charIndexFromByte (utf8ByteOffsets "aé€b".toList) 1
          ≤ charIndexFromByte (utf8ByteOffsets "aé€b".toList) 6
      ∧ charIndexFromByte (utf8ByteOffsets "aé€b".toList) 6 ≤ "aé€b".toList.length
      ∧ (pySlice "aé€b".toList (charIndexFromByte (utf8ByteOffsets "aé€b".toList) 1)
            (charIndexFromByte (utf8ByteOffsets "aé€b".toList) 6)).length
          = charIndexFromByte (utf8ByteOffsets "aé€b".toList) 6
            - charIndexFromByte (utf8ByteOffsets "aé€b".toList) 1) :=
  ⟨by decide, byte_char_mapping_safe ("aé€b".toList) 1 6 (by decide)⟩

/-! ### C10: embedding the empty list is an immediate no-op -/

/-- C10: `embed_texts_openai` applied to the empty text list returns the
empty vector list with an empty event log: no client is constructed, no
provider call and no sleep happens. -/
theorem embed_empty_no_calls (p : Provider) (bs mr : Nat) (rb : ℚ) :
    embed_texts_openai p [] bs mr rb = (some [], []) := rfl

/-! ### C2: the react-only project scores 7, not 5 -/

/-- Counterexample to C2 as stated: on the spec's own example project the
react score is 7 (2 for the `package.json` marker file + 5 for the
dependency), not 5; the detected framework is still react. -/
theorem react_only_score_ne_five :
    frameworkScore reactOnlyProject reactPattern = 7
    ∧ ¬ frameworkScore reactOnlyProject reactPattern = 5
    ∧ detectFramework reactOnlyProject = some ("react") := by decide

/-- C2 (amended): for a project whose only file is a root `package.json`
whose dependencies list exactly `react`, the react score is 7, every other
framework scores 0, and the detected framework is react. -/
theorem react_only_detection (proj : PyProject)
    (hf : proj.allFiles = ["package.json"])
    (hm : proj.files_map = [])
    (hd : proj.packageDeps = some ["react"]) :
    frameworkScore proj reactPattern = 7
    ∧ (∀ p ∈ FRAMEWORK_PATTERNS, ¬ p.name = "react" → frameworkScore proj p = 0)
    ∧ detectFramework proj = some ("react") := by
  obtain ⟨a, m, d⟩ := proj
  simp only at hf hm hd
  subst hf hm hd
  decide

/-- Witness for the amended C2 at the concrete react-only project. -/
theorem react_only_detection_witness :
    (reactOnlyProject.allFiles = ["package.json"]
      ∧ reactOnlyProject.files_map = []
      ∧ reactOnlyProject.packageDeps = some ["react"])
    ∧ (frameworkScore reactOnlyProject reactPattern = 7
      ∧ (∀ p ∈ FRAMEWORK_PATTERNS, ¬ p.name = "react" → frameworkScore reactOnlyProject p = 0)
      ∧ detectFramework reactOnlyProject = some ("react")) :=
  ⟨⟨rfl, rfl, rfl⟩, react_only_detection reactOnlyProject rfl rfl rfl⟩

/-! ### C7: search returns at most k rows in non-decreasing score order -/

/-- C7: for every store state, query vector, path filter and `k ∈ [1, 50]`
(the API route caps the requested `top_k` at 50, `searchEffectiveK`), the
search returns at most `k` rows and their distance scores are non-decreasing
from first to last. -/
theorem search_k_bounded_sorted (db : ChunkDB) (pid : Nat) (qvec : Vec) (k : Nat)
    (pathPref : Option String) (hk1 : 1 ≤ k) (hk2 : k ≤ 50) :
    (vector_search_project db pid qvec k pathPref).length ≤ k
    ∧ List.Sorted (· ≤ ·)
        ((vector_search_project db pid qvec k pathPref).map (fun r => r.score)) := by
  constructor
  · simp only [vector_search_project, List.length_map, List.length_take]
    exact le_trans (min_le_left _ _) (le_refl k)
  · simp only [vector_search_project, List.map_map]
    haveI hT : IsTotal DBRow (fun a b => sqL2 a.embedding qvec ≤ sqL2 b.embedding qvec) :=
      ⟨fun a b => le_total _ _⟩
    haveI hR : IsTrans DBRow (fun a b => sqL2 a.embedding qvec ≤ sqL2 b.embedding qvec) :=
      ⟨fun _ _ _ hab hbc => le_trans hab hbc⟩
    have hs := List.sorted_insertionSort
      (fun a b => sqL2 a.embedding qvec ≤ sqL2 b.embedding qvec)
      (db.filter (fun r =>
        decide (r.project_id = pid) &&
          match pathPref with
          | some pref => pathLike pref r.path
          | none => true))
    have htake := List.Pairwise.sublist (List.take_sublist k _) hs
    exact List.pairwise_map.mpr htake

/-- Witness for C7 at a concrete three-row store with k = 2. -/
theorem search_k_bounded_sorted_witness :
    (1 ≤ 2 ∧ 2 ≤ 50)
    ∧ ((vector_search_project dbW 1 [(1 : ℚ)] 2 none).length ≤ 2
      ∧ List.Sorted (· ≤ ·)
          ((vector_search_project dbW 1 [(1 : ℚ)] 2 none).map (fun r => r.score))) :=
  ⟨by decide, search_k_bounded_sorted dbW 1 [(1 : ℚ)] 2 none (by decide) (by decide)⟩

/-! ### C1 and C3: reindex failure atomicity and the orchestrator -/

/-- A raising `index_project_chunks_to_pgvector` run commits nothing: at
function exit the committed store still holds the previously committed rows,
because the single `db.commit()` of the run was never reached. -/
theorem index_fail_keeps_db (pid : Nat) (chunks : List ChunkOut) (p : Provider)
    (mr : Nat) (rb : ℚ) (db : ChunkDB)
    (h : (index_project_chunks_to_pgvector pid chunks p mr rb db).1 = false) :
    ((index_project_chunks_to_pgvector pid chunks p mr rb db).2).committed = db := by
  unfold index_project_chunks_to_pgvector at h ⊢
  by_cases hne : chunks.isEmpty = true
  · rw [if_pos hne] at h
    simp at h
  · rw [if_neg hne] at h ⊢
    cases hemb : (embed_texts_openai p (chunks.map (fun c => c.content)) 64 mr rb).1 with
    | none =>
      simp [txnDeleteProject, txnBegin]
    | some vectors =>
      by_cases hlen : vectors.length ≠ chunks.length
      · simp [hlen, txnDeleteProject, txnBegin]
      · rw [hemb] at h
        simp [hlen] at h

/-- A raising run leaves the delete of the project's rows pending on the
session: if the caller commits the session afterwards, the prior rows of the
reindexed project are wiped with nothing inserted. -/
theorem index_fail_pending (pid : Nat) (chunks : List ChunkOut) (p : Provider)
    (mr : Nat) (rb : ℚ) (db : ChunkDB)
    (h : (index_project_chunks_to_pgvector pid chunks p mr rb db).1 = false) :
    ((index_project_chunks_to_pgvector pid chunks p mr rb db).2).pending
      = db.filter (fun r => r.project_id ≠ pid) := by
  unfold index_project_chunks_to_pgvector at h ⊢
  by_cases hne : chunks.isEmpty = true
  · rw [if_pos hne] at h
    simp at h
  · rw [if_neg hne] at h ⊢
    cases hemb : (embed_texts_openai p (chunks.map (fun c => c.content)) 64 mr rb).1 with
    | none =>
      simp [txnDeleteProject, txnBegin]
    | some vectors =>
      by_cases hlen : vectors.length ≠ chunks.length
      · simp [hlen, txnDeleteProject, txnBegin]
      · rw [hemb] at h
        simp [hlen] at h

/-- A run accepted by `runOk` commits exactly the prior rows of the other
projects followed by its own rows. -/
theorem index_ok_replaces (pid mr : Nat) (rb : ℚ) (run : ReindexRun) (db : ChunkDB)
    (h : runOk mr rb run = true) :
    index_project_chunks_to_pgvector pid run.1 run.2 mr rb db
      = (true, txnBegin (db.filter (fun r => r.project_id ≠ pid) ++ runRows pid mr rb run)) := by
  unfold runOk at h
  rw [Bool.and_eq_true] at h
  obtain ⟨hne, hm⟩ := h
  unfold index_project_chunks_to_pgvector
  rw [Bool.not_eq_true' ] at hne
  rw [if_neg (by simp [hne])]
  split
  · rename_i hemb
    rw [hemb] at hm
    simp at hm
  · rename_i vectors hemb
    rw [hemb] at hm
    simp only [decide_eq_true_eq] at hm
    rw [if_neg (by omega)]
    unfold runRows
    rw [hemb]
    simp [txnCommit, txnInsert, txnDeleteProject, txnBegin, Option.getD]

/-- The rows committed by a run all belong to the reindexed project, so the
other-projects filter removes all of them. -/
theorem filter_ne_chunkRows (pid : Nat) (chunks : List ChunkOut) (vectors : List Vec) :
    (chunkRows pid chunks vectors).filter (fun r => r.project_id ≠ pid) = [] := by
  unfold chunkRows
  rw [List.filter_map]
  have : ((fun (r : DBRow) => decide (r.project_id ≠ pid)) ∘
      (fun cv : ChunkOut × Vec =>
        ({ project_id := pid, path := cv.1.path, chunk_index := cv.1.chunk_index,
           start_line := some cv.1.start_line, end_line := some cv.1.end_line,
           content := cv.1.content, embedding := cv.2 } : DBRow)))
      = fun _ => false := by
    funext cv
    simp
  rw [this, List.filter_false, List.map_nil]

/-- C3 (amended): one reindex commits delete-then-insert together.  First
conjunct: after any non-empty sequence of reindex runs that each chunk at
least one file and embed successfully, the committed store is the other
projects' rows followed by exactly the last run's rows — nothing of the
earlier generations survives.  Second conjunct: a failing run commits
nothing, so at function exit the previously committed store is unchanged.
Third conjunct: a run over an EMPTY chunk list returns success before any
statement executes, so the prior generation's rows stay committed — such a
run does not replace anything, which is why the first conjunct must require
its runs non-empty. -/
theorem reindex_full_replace (pid mr : Nat) (rb : ℚ) (db : ChunkDB)
    (runs : List ReindexRun) (hne : runs ≠ [])
    (hok : ∀ run ∈ runs, runOk mr rb run = true) :
    runs.foldl (applyRun pid mr rb) db
      = db.filter (fun r => r.project_id ≠ pid) ++ runRows pid mr rb (runs.getLast hne)
    ∧ (∀ (db' : ChunkDB) (run : ReindexRun),
        (index_project_chunks_to_pgvector pid run.1 run.2 mr rb db').1 = false →
        ((index_project_chunks_to_pgvector pid run.1 run.2 mr rb db').2).committed = db')
    ∧ (∀ (db' : ChunkDB) (run : ReindexRun), run.1 = [] →
        (index_project_chunks_to_pgvector pid run.1 run.2 mr rb db').1 = true
        ∧ ((index_project_chunks_to_pgvector pid run.1 run.2 mr rb db').2).committed = db') := by
  refine ⟨?_, fun db' run h => index_fail_keeps_db pid run.1 run.2 mr rb db' h,
    fun db' run h => by
      unfold index_project_chunks_to_pgvector
      rw [h]
      exact ⟨rfl, rfl⟩⟩
  induction runs generalizing db with
  | nil => exact absurd rfl hne
  | cons r rest ih =>
    have hr := hok r (by simp)
    cases rest with
    | nil =>
      simp only [List.foldl_cons, List.foldl_nil, List.getLast_singleton]
      unfold applyRun
      rw [index_ok_replaces pid mr rb r db hr]
      rfl
    | cons r2 rest2 =>
      have hrest : (r2 :: rest2 : List ReindexRun) ≠ [] := by simp
      rw [List.foldl_cons, List.getLast_cons hrest]
      have step : applyRun pid mr rb db r
          = db.filter (fun r' => r'.project_id ≠ pid) ++ runRows pid mr rb r := by
        unfold applyRun
        rw [index_ok_replaces pid mr rb r db hr]
        rfl
      rw [step, ih _ hrest (fun run hm => hok run (List.mem_cons_of_mem r hm))]
      congr 1
      rw [List.filter_append, List.filter_filter]
      have h1 : (List.filter (fun a => decide (a.project_id ≠ pid)
          && decide (a.project_id ≠ pid)) db) = db.filter (fun r' => r'.project_id ≠ pid) := by
        congr 1
        funext a
        cases decide (a.project_id ≠ pid) <;> rfl
      unfold runRows
      rw [h1, filter_ne_chunkRows, List.append_nil]

/-- Witness for C3: two successful runs on a store holding a prior generation
and another project's row; the final store is the other project's row plus
exactly the second run's row. -/
theorem reindex_full_replace_witness :
    (runsW ≠ [] ∧ ∀ run ∈ runsW, runOk 3 (3 / 2) run = true)
    ∧ (runsW.foldl (applyRun 1 3 (3 / 2)) [priorRow, otherRow]
        = ([priorRow, otherRow] : ChunkDB).filter (fun r => r.project_id ≠ 1)
            ++ runRows 1 3 (3 / 2) ([chunkY], provSingle9)
      ∧ (∀ (db' : ChunkDB) (run : ReindexRun),
          (index_project_chunks_to_pgvector 1 run.1 run.2 3 (3 / 2) db').1 = false →
          ((index_project_chunks_to_pgvector 1 run.1 run.2 3 (3 / 2) db').2).committed = db')
      ∧ (∀ (db' : ChunkDB) (run : ReindexRun), run.1 = [] →
          (index_project_chunks_to_pgvector 1 run.1 run.2 3 (3 / 2) db').1 = true
          ∧ ((index_project_chunks_to_pgvector 1 run.1 run.2 3 (3 / 2) db').2).committed
              = db')) :=
  ⟨⟨by simp [runsW], by decide⟩,
    reindex_full_replace 1 3 (3 / 2) [priorRow, otherRow] runsW (by simp [runsW]) (by decide)⟩

/-- Counterexample to C3 as stated: a reindex run that finds zero chunks
(`index_project_chunks_to_pgvector` lines 703-705) returns success without
deleting the project's prior rows, so after a sequence of runs whose last run
chunks nothing, the committed store is NOT "exactly the last run's chunks":
the previous generation's row survives. -/
theorem reindex_zero_chunk_run_keeps_prior :
    (index_project_chunks_to_pgvector 1 [] provSingle 3 (3 / 2)
        (applyRun 1 3 (3 / 2) [priorRow, otherRow] ([chunkX], provSingle))).1 = true
    ∧ runsZ.foldl (applyRun 1 3 (3 / 2)) [priorRow, otherRow]
        ≠ ([priorRow, otherRow] : ChunkDB).filter (fun r => r.project_id ≠ 1)
            ++ runRows 1 3 (3 / 2) ([], provSingle)
    ∧ runsZ.foldl (applyRun 1 3 (3 / 2)) [priorRow, otherRow]
        = applyRun 1 3 (3 / 2) [priorRow, otherRow] ([chunkX], provSingle) := by
  decide

/-- Counterexample to C1 as stated: with both analysis and workflow steps
succeeding, a progress tracker passed (as the sole caller always does), and
the embedding provider failing every attempt (retries exhausted), the run
does NOT terminate in the Failed state — the project is marked completed
before the embedding step and the swallowed exception leaves the run
reporting success.  Worse, the chunk store is not left at its prior state
either: `progress_tracker.complete` commits the session on which the
project's prior rows were already deleted, so the prior generation
(`priorRow`) is wiped and only the other project's row survives. -/
theorem orchestrator_embed_failure_completes :
    (run_indexing_workflow envEmbedFail 1 orchDB0).success = true
    ∧ (run_indexing_workflow envEmbedFail 1 orchDB0).raised = false
    ∧ (run_indexing_workflow envEmbedFail 1 orchDB0).db.project
        = some { preprocessing_status := "completed" }
    ∧ ¬ (run_indexing_workflow envEmbedFail 1 orchDB0).db.project
        = some { preprocessing_status := "failed" }
    ∧ (run_indexing_workflow envEmbedFail 1 orchDB0).db.chunks = [otherRow]
    ∧ ¬ (run_indexing_workflow envEmbedFail 1 orchDB0).db.chunks = orchDB0.chunks := by
  decide

/-- C1 (amended): a failure of the repository-analysis or workflow step
terminates the run in the Failed state (status `failed` committed, exception
re-raised, chunk store untouched); but a failure of the embedding step — for
example exhausted retries — is swallowed: the project stays marked `completed`
(committed before that step), the run reports success, and — because the
progress tracker's completion event commits the session after the delete of
the project's prior chunk rows had already executed — the committed chunk
store ends as the other projects' rows only: the reindexed project's prior
rows are deleted with nothing inserted. -/
theorem orchestrator_failure_modes (env : OrchEnv) (pid : Nat) (db : OrchDB) :
    ((env.analysisOk = false ∨ env.workflowOk = false) →
      (run_indexing_workflow env pid db).raised = true
      ∧ (run_indexing_workflow env pid db).success = false
      ∧ (run_indexing_workflow env pid db).db.project
          = db.project.map (fun pr => { pr with preprocessing_status := "failed" })
      ∧ (run_indexing_workflow env pid db).db.chunks = db.chunks)
    ∧ (env.analysisOk = true → env.workflowOk = true → env.tracker = true →
      (run_indexing_workflow env pid db).success = true
      ∧ (run_indexing_workflow env pid db).raised = false
      ∧ (run_indexing_workflow env pid db).db.project
          = db.project.map (fun pr => { pr with preprocessing_status := "completed" })
      ∧ ((index_project_chunks_to_pgvector pid env.chunks env.p 3 (3 / 2) db.chunks).1 = false →
          (run_indexing_workflow env pid db).db.chunks
            = db.chunks.filter (fun r => r.project_id ≠ pid))) := by
  constructor
  · intro hfail
    simp [run_indexing_workflow, if_pos hfail]
  · intro hA hW hT
    have hcond : ¬ (env.analysisOk = false ∨ env.workflowOk = false) := by
      simp [hA, hW]
    refine ⟨by simp [run_indexing_workflow, hcond], by simp [run_indexing_workflow, hcond],
      by simp [run_indexing_workflow, hcond], fun hidx => ?_⟩
    simp only [run_indexing_workflow, if_neg hcond]
    rw [if_pos hT]
    exact index_fail_pending pid env.chunks env.p 3 (3 / 2) db.chunks hidx

/-- Witness for the amended C1, at a concrete failing-analysis run and a
concrete run whose embedding step exhausts its retries. -/
theorem orchestrator_failure_modes_witness :
    ((envAnalysisFail.analysisOk = false ∨ envAnalysisFail.workflowOk = false)
      ∧ ((run_indexing_workflow envAnalysisFail 1 orchDB0).raised = true
        ∧ (run_indexing_workflow envAnalysisFail 1 orchDB0).success = false
        ∧ (run_indexing_workflow envAnalysisFail 1 orchDB0).db.project
            = orchDB0.project.map (fun pr => { pr with preprocessing_status := "failed" })
        ∧ (run_indexing_workflow envAnalysisFail 1 orchDB0).db.chunks = orchDB0.chunks))
    ∧ ((envEmbedFail.analysisOk = true ∧ envEmbedFail.workflowOk = true
        ∧ envEmbedFail.tracker = true)
      ∧ ((run_indexing_workflow envEmbedFail 1 orchDB0).success = true
        ∧ (run_indexing_workflow envEmbedFail 1 orchDB0).raised = false
        ∧ (run_indexing_workflow envEmbedFail 1 orchDB0).db.project
            = orchDB0.project.map (fun pr => { pr with preprocessing_status := "completed" })
        ∧ ((index_project_chunks_to_pgvector 1 envEmbedFail.chunks envEmbedFail.p 3
              (3 / 2) orchDB0.chunks).1 = false →
            (run_indexing_workflow envEmbedFail 1 orchDB0).db.chunks
              = orchDB0.chunks.filter (fun r => r.project_id ≠ 1)))) :=
  ⟨⟨by decide, (orchestrator_failure_modes envAnalysisFail 1 orchDB0).1 (by decide)⟩,
    ⟨by decide,
      (orchestrator_failure_modes envEmbedFail 1 orchDB0).2 (by decide) (by decide) (by decide)⟩⟩

/-! ### C5: tier-1 chunking is containment-free -/

/-- The output of the containment filter never keeps a span whose range is
fully contained in the range of a span at another output position. -/
theorem dropContained_free (chunks : List (Nat × Nat × String)) (i j : Nat)
    (hi : i < (dropContained chunks).length) (hj : j < (dropContained chunks).length)
    (hij : i ≠ j) :
    ¬ (((dropContained chunks).get ⟨j, hj⟩).1 ≤ ((dropContained chunks).get ⟨i, hi⟩).1
      ∧ ((dropContained chunks).get ⟨i, hi⟩).2.1 ≤ ((dropContained chunks).get ⟨j, hj⟩).2.1) := by
  intro hcon
  obtain ⟨h1, h2⟩ := hcon
  have hi2 : i < (chunks.enum.filter (fun ic => ! containedPred chunks ic)).length := by
    simpa [dropContained] using hi
  have hj2 : j < (chunks.enum.filter (fun ic => ! containedPred chunks ic)).length := by
    simpa [dropContained] using hj
  have hgi : (dropContained chunks).get ⟨i, hi⟩
      = ((chunks.enum.filter (fun ic => ! containedPred chunks ic)).get ⟨i, hi2⟩).2 := by
    simp [dropContained, List.get_eq_getElem, List.getElem_map]
  have hgj : (dropContained chunks).get ⟨j, hj⟩
      = ((chunks.enum.filter (fun ic => ! containedPred chunks ic)).get ⟨j, hj2⟩).2 := by
    simp [dropContained, List.get_eq_getElem, List.getElem_map]
  set fl := chunks.enum.filter (fun ic => ! containedPred chunks ic) with hfldef
  have hnd : (fl.map Prod.fst).Nodup := by
    have hbase : (chunks.enum.map Prod.fst).Nodup := by
      rw [List.enum_map_fst]
      exact List.nodup_range _
    exact List.Sublist.nodup (List.Sublist.map Prod.fst (List.filter_sublist _)) hbase
  have hfst : (fl.get ⟨i, hi2⟩).1 ≠ (fl.get ⟨j, hj2⟩).1 := by
    intro he
    have hmapi : i < (fl.map Prod.fst).length := by simpa using hi2
    have hmapj : j < (fl.map Prod.fst).length := by simpa using hj2
    have hget : (fl.map Prod.fst).get ⟨i, hmapi⟩ = (fl.map Prod.fst).get ⟨j, hmapj⟩ := by
      simp only [List.get_eq_getElem, List.getElem_map]
      exact he
    have := (List.Nodup.get_inj_iff hnd).mp hget
    exact hij (by simpa using congrArg Fin.val this)
  have hPi : (! containedPred chunks (fl.get ⟨i, hi2⟩)) = true :=
    (List.mem_filter.mp (List.get_mem fl i hi2)).2
  have hmemJ : fl.get ⟨j, hj2⟩ ∈ chunks.enum :=
    (List.mem_filter.mp (List.get_mem fl j hj2)).1
  have hcontained : containedPred chunks (fl.get ⟨i, hi2⟩) = true := by
    unfold containedPred
    rw [List.any_eq_true]
    refine ⟨fl.get ⟨j, hj2⟩, hmemJ, ?_⟩
    simp only [Bool.and_eq_true, decide_eq_true_eq]
    rw [hgi] at h1 h2
    rw [hgj] at h1 h2
    exact ⟨⟨Ne.symm hfst, h1⟩, h2⟩
  rw [hcontained] at hPi
  simp at hPi

/-- C5: whenever the syntax-aware tier yields spans, the returned span list
is containment-free: no returned span's character range is fully contained in
another returned span's range. -/
theorem tier1_containment_free (content : List Char) (tree : TSNode) (ext : String)
    (maxC : Nat) (i j : Nat)
    (hi : i < (extract_tree_sitter_chunks content tree ext maxC).length)
    (hj : j < (extract_tree_sitter_chunks content tree ext maxC).length)
    (hij : i ≠ j) :
    ¬ (((extract_tree_sitter_chunks content tree ext maxC).get ⟨j, hj⟩).1
          ≤ ((extract_tree_sitter_chunks content tree ext maxC).get ⟨i, hi⟩).1
      ∧ ((extract_tree_sitter_chunks content tree ext maxC).get ⟨i, hi⟩).2.1
          ≤ ((extract_tree_sitter_chunks content tree ext maxC).get ⟨j, hj⟩).2.1) := by
  by_cases ht : getChunkableNodeTypes ext = []
  · exfalso
    have : (extract_tree_sitter_chunks content tree ext maxC).length = 0 := by
      unfold extract_tree_sitter_chunks
      rw [if_pos ht]
      rfl
    omega
  · revert hi hj
    unfold extract_tree_sitter_chunks
    rw [if_neg ht]
    intro hi hj
    exact dropContained_free _ i j hi hj hij

/-- Witness for C5: the two-function module yields two tier-1 spans, neither
contained in the other. -/
theorem tier1_containment_free_witness :
    (0 : Nat) ≠ 1
    ∧ ¬ (((extract_tree_sitter_chunks contW treeW extPy 1200).get ⟨1, by decide⟩).1
          ≤ ((extract_tree_sitter_chunks contW treeW extPy 1200).get ⟨0, by decide⟩).1
      ∧ ((extract_tree_sitter_chunks contW treeW extPy 1200).get ⟨0, by decide⟩).2.1
          ≤ ((extract_tree_sitter_chunks contW treeW extPy 1200).get ⟨1, by decide⟩).2.1) :=
  ⟨by decide,
    tier1_containment_free contW treeW extPy 1200 0 1 (by decide) (by decide) (by decide)⟩

/-! ### C6: chunk invariants (trimmed non-empty content, ordered line numbers) -/

/-- A list whose head (if any) fails the predicate is unchanged by
`dropWhile`. -/
theorem dropWhile_eq_self_of_head {α : Type} {p : α → Bool} {l : List α}
    (h : ∀ x, l.head? = some x → p x = false) : l.dropWhile p = l := by
  cases l with
  | nil => rfl
  | cons x t =>
    rw [List.dropWhile_cons, h x rfl]
    simp

/-- The head of a `dropWhile` result fails the dropped predicate. -/
theorem head?_dropWhile_false {α : Type} (p : α → Bool) (l : List α) :
    ∀ x, (l.dropWhile p).head? = some x → p x = false := by
  intro x hx
  have hne : l.dropWhile p ≠ [] := by
    intro h0
    rw [h0] at hx
    cases hx
  have h2 := List.head_dropWhile_not p l hne
  have h3 := List.head?_eq_head hne
  rw [hx] at h3
  rw [Option.some.inj h3]
  exact h2

theorem dropWhile_idem {α : Type} (p : α → Bool) (l : List α) :
    (l.dropWhile p).dropWhile p = l.dropWhile p :=
  dropWhile_eq_self_of_head (head?_dropWhile_false p l)

theorem pyStrip_ne_nil_imp {s : List Char} (h : pyStrip s ≠ []) : s ≠ [] := by
  intro he
  subst he
  exact h rfl

theorem pyStrip_idem (s : List Char) : pyStrip (pyStrip s) = pyStrip s := by
  unfold pyStrip
  have hstep1 :
      (((s.dropWhile Char.isWhitespace).reverse.dropWhile Char.isWhitespace).reverse).dropWhile
          Char.isWhitespace
        = ((s.dropWhile Char.isWhitespace).reverse.dropWhile Char.isWhitespace).reverse := by
    apply dropWhile_eq_self_of_head
    intro x hx
    rw [List.head?_reverse] at hx
    have hBne : (s.dropWhile Char.isWhitespace).reverse.dropWhile Char.isWhitespace ≠ [] := by
      intro h0
      rw [h0] at hx
      cases hx
    obtain ⟨t, ht⟩ := List.dropWhile_suffix
      (l := (s.dropWhile Char.isWhitespace).reverse) Char.isWhitespace
    rw [← List.getLast?_append_of_ne_nil t hBne, ht, List.getLast?_reverse] at hx
    exact head?_dropWhile_false Char.isWhitespace s x hx
  rw [hstep1, List.reverse_reverse, dropWhile_idem]

theorem lineNumberAt_mono (nl : List Nat) {a b : Nat} (h : a ≤ b) :
    lineNumberAt nl a ≤ lineNumberAt nl b := by
  unfold lineNumberAt bisectLeft
  have := List.countP_mono_left (l := nl)
    (p := fun v => decide (v < a)) (q := fun v => decide (v < b))
    (fun v _ hv => by simp only [decide_eq_true_eq] at hv ⊢; omega)
  omega

theorem pySlice_ne_nil_lt {text : List Char} {a b : Nat} (h : pySlice text a b ≠ []) :
    a < b := by
  have hlen : 0 < (pySlice text a b).length := List.length_pos.mpr h
  simp only [pySlice, List.length_drop, List.length_take] at hlen
  omega

theorem charSplitLoop_lt (csize ov : Nat) (text : List Char) (off : Nat) :
    ∀ (fuel i : Nat), ∀ se ∈ charSplitLoop csize ov text off fuel i, se.1 < se.2 := by
  intro fuel
  induction fuel with
  | zero => intro i se hse; simp [charSplitLoop] at hse
  | succ f ih =>
    intro i se hse
    unfold charSplitLoop at hse
    have hhere : se ∈ (if pyStrip (pySlice text i (min text.length (i + csize))) ≠ []
        then [(off + i, off + min text.length (i + csize))] else []) → se.1 < se.2 := by
      intro hx
      split at hx
      · rename_i hstrip
        have hlt := pySlice_ne_nil_lt (pyStrip_ne_nil_imp hstrip)
        simp at hx
        subst hx
        simp
        omega
      · simp at hx
    split at hse
    · split at hse
      · exact hhere hse
      · rw [List.mem_append] at hse
        cases hse with
        | inl h => exact hhere h
        | inr h => exact ih _ se h
    · simp at hse

theorem accumEmits_span_lt (csize ov : Nat) (text : List Char) :
    ∀ (pieces : List (Nat × Nat)) (cs ce s e : Nat),
      Emit.span s e ∈ accumEmits csize ov text pieces cs ce → s < e := by
  intro pieces
  induction pieces with
  | nil =>
    intro cs ce s e hse
    unfold accumEmits at hse
    split at hse
    · rename_i hguard
      simp at hse
      obtain ⟨hs, he⟩ := hse
      subst hs he
      exact hguard.1
    · simp at hse
  | cons piece rest ih =>
    intro cs ce s e hse
    obtain ⟨ps, pe⟩ := piece
    unfold accumEmits at hse
    have hemit1 : Emit.span s e ∈ (if cs < ce ∧ pyStrip (pySlice text cs ce) ≠ []
        then [Emit.span cs ce] else []) → s < e := by
      intro hx
      split at hx
      · rename_i hguard
        simp at hx
        obtain ⟨h1, h2⟩ := hx
        subst h1
        subst h2
        exact hguard.1
      · simp at hx
    split at hse
    · exact ih cs pe s e hse
    · split at hse
      · rw [List.mem_append] at hse
        cases hse with
        | inl h => exact hemit1 h
        | inr h => exact ih _ _ s e h
      · rw [List.mem_append] at hse
        cases hse with
        | inl h => exact hemit1 h
        | inr h =>
          rw [List.mem_cons] at h
          cases h with
          | inl h0 => cases h0
          | inr h1 => exact ih _ _ s e h1

theorem splitRec_lt (csize ov : Nat) :
    ∀ (seps : List (List Char)) (text : List Char) (off : Nat),
      ∀ se ∈ splitRec csize ov seps text off, se.1 < se.2 := by
  intro seps
  induction seps with
  | nil =>
    intro text off se hse
    unfold splitRec at hse
    split at hse
    · split at hse
      · rename_i hstrip
        simp at hse
        subst hse
        simp
        exact List.length_pos.mpr (pyStrip_ne_nil_imp hstrip)
      · simp at hse
    · exact charSplitLoop_lt csize ov text off _ _ se hse
  | cons sep rest ih =>
    intro text off se hse
    unfold splitRec at hse
    split at hse
    · split at hse
      · rename_i hstrip
        simp at hse
        subst hse
        simp
        exact List.length_pos.mpr (pyStrip_ne_nil_imp hstrip)
      · simp at hse
    · split at hse
      · exact charSplitLoop_lt csize ov text off _ _ se hse
      · split at hse
        · rw [List.mem_flatMap] at hse
          obtain ⟨em, hem, hx⟩ := hse
          cases em with
          | span s e =>
            simp at hx
            subst hx
            have := accumEmits_span_lt csize ov text _ 0 0 s e hem
            simp
            omega
          | recur ps pe =>
            simp only at hx
            exact ih _ _ se hx
        · exact ih text off se hse

mutual

theorem traverse_le (targets : List String) (offs : List Nat) (maxC : Nat)
    (hmono : ∀ a b : Nat, a ≤ b → charIndexFromByte offs a ≤ charIndexFromByte offs b) :
    ∀ t : TSNode, TSNode.wf t = true →
      ∀ x ∈ traverse targets offs maxC t, x.1 ≤ x.2.1
  | .mk k sb eb cs, hwf, x, hx => by
    unfold TSNode.wf at hwf
    rw [Bool.and_eq_true, decide_eq_true_eq] at hwf
    obtain ⟨hsb, hcs⟩ := hwf
    unfold traverse at hx
    by_cases hk : k ∈ targets
    · rw [if_pos hk] at hx
      split at hx
      · simp at hx
        subst hx
        exact hmono sb eb hsb
      · exact traverseList_le targets offs maxC hmono cs hcs x hx
    · rw [if_neg hk] at hx
      exact traverseList_le targets offs maxC hmono cs hcs x hx

theorem traverseList_le (targets : List String) (offs : List Nat) (maxC : Nat)
    (hmono : ∀ a b : Nat, a ≤ b → charIndexFromByte offs a ≤ charIndexFromByte offs b) :
    ∀ l : List TSNode, TSNode.wfList l = true →
      ∀ x ∈ traverseList targets offs maxC l, x.1 ≤ x.2.1
  | [], _, x, hx => by simp [traverseList] at hx
  | c :: cs, hwf, x, hx => by
    unfold TSNode.wfList at hwf
    rw [Bool.and_eq_true] at hwf
    unfold traverseList at hx
    rw [List.mem_append] at hx
    cases hx with
    | inl h => exact traverse_le targets offs maxC hmono c hwf.1 x h
    | inr h => exact traverseList_le targets offs maxC hmono cs hwf.2 x h

end

theorem dropContained_subset {chunks : List (Nat × Nat × String)}
    {x : Nat × Nat × String} (hx : x ∈ dropContained chunks) : x ∈ chunks := by
  unfold dropContained at hx
  rw [List.mem_map] at hx
  obtain ⟨ic, hic, he⟩ := hx
  have := (List.mem_filter.mp hic).1
  rw [List.mem_enum_iff_getElem?] at this
  rw [List.getElem?_eq_some_iff] at this
  obtain ⟨hb, hget⟩ := this
  rw [← he, ← hget]
  exact List.getElem_mem hb

theorem extract_le (content : List Char) (tree : TSNode) (ext : String) (maxC : Nat)
    (hwf : TSNode.wf tree = true) :
    ∀ x ∈ extract_tree_sitter_chunks content tree ext maxC, x.1 ≤ x.2.1 := by
  intro x hx
  unfold extract_tree_sitter_chunks at hx
  split at hx
  · simp at hx
  · have hx2 := dropContained_subset hx
    rw [List.mem_insertionSort] at hx2
    exact traverse_le _ _ maxC (fun a b h => charIndexFromByte_mono content h)
      tree hwf x hx2

theorem mkChunks_invariants (path : String) (content : List Char) (nl : List Nat)
    (spans : List (Nat × Nat)) (hsp : ∀ se ∈ spans, se.1 ≤ se.2) :
    ∀ c ∈ mkChunks path content nl spans,
      c.content ≠ [] ∧ pyStrip c.content = c.content ∧ c.start_line ≤ c.end_line := by
  intro c hc
  unfold mkChunks at hc
  rw [List.mem_filterMap] at hc
  obtain ⟨ise, hmem, heq⟩ := hc
  split at heq
  · cases heq
  · rename_i hstrip
    rw [Option.some.injEq] at heq
    have hsele : ise.2.1 ≤ ise.2.2 := by
      have hm : ise.2 ∈ spans := by
        have := List.mem_enum_iff_getElem?.mp hmem
        rw [List.getElem?_eq_some_iff] at this
        obtain ⟨hb, hget⟩ := this
        rw [← hget]
        exact List.getElem_mem hb
      exact hsp ise.2 hm
    refine ⟨?_, ?_, ?_⟩
    · rw [← heq]
      exact hstrip
    · rw [← heq]
      exact pyStrip_idem _
    · rw [← heq]
      by_cases hnl : nl ≠ []
      · simp only [if_pos hnl]
        exact lineNumberAt_mono nl hsele
      · simp only [if_neg hnl]
        exact le_refl 1

theorem tier2Spans_le (lcDocs : Option (List (Nat × Nat))) (path : String)
    (content : List Char) (cc ov : Nat) :
    ∀ se ∈ tier2Spans lcDocs path content cc ov, se.1 ≤ se.2 := by
  intro se hse
  cases lcDocs with
  | none => exact le_of_lt (splitRec_lt cc ov _ content 0 se hse)
  | some docs =>
    by_cases hemp : (docs.map (fun d => (d.1, d.1 + d.2))).isEmpty = true
    · rw [show tier2Spans (some docs) path content cc ov
          = fallback_recursive_split_spans content (getSeparatorsForFile (fileExt path)) cc ov by
        simp [tier2Spans, hemp]] at hse
      exact le_of_lt (splitRec_lt cc ov _ content 0 se hse)
    · rw [show tier2Spans (some docs) path content cc ov
          = docs.map (fun d => (d.1, d.1 + d.2)) by
        simp [tier2Spans, hemp]] at hse
      rw [List.mem_map] at hse
      obtain ⟨d, _, he⟩ := hse
      rw [← he]
      simp

/-- C6: every chunk produced by the chunking engine — whichever tier applies,
for any path, content, parse tree (well-formed, as real tree-sitter trees
are) and external-splitter output — has content that is non-empty and
unchanged by trimming (so never empty or whitespace-only), and 1-based line
numbers with `start_line ≤ end_line`. -/
theorem chunk_invariants (tree : Option TSNode) (lcDocs : Option (List (Nat × Nat)))
    (path : String) (content : List Char) (cc ov : Nat)
    (hwf : ∀ t, tree = some t → TSNode.wf t = true) :
    ∀ c ∈ split_text_to_code_chunks tree lcDocs path content cc ov,
      c.content ≠ [] ∧ pyStrip c.content = c.content ∧ c.start_line ≤ c.end_line := by
  intro c hc
  unfold split_text_to_code_chunks at hc
  split at hc
  · exact mkChunks_invariants path content _ _ (tier2Spans_le lcDocs path content cc ov) c hc
  · unfold tier1Chunks at hc
    cases htree : tree with
    | none => rw [htree] at hc; simp at hc
    | some t =>
      rw [htree] at hc
      refine mkChunks_invariants path content _ _ ?_ c hc
      intro se hse
      rw [List.mem_map] at hse
      obtain ⟨x, hx, he⟩ := hse
      rw [← he]
      exact extract_le content t (fileExt path) cc (hwf t htree) x hx

/-- Witness for C6 on the two-function Python module parsed by the
syntax-aware tier. -/
theorem chunk_invariants_witness :
    (∀ t, some treeW = some t → TSNode.wf t = true)
    ∧ (∀ c ∈ split_text_to_code_chunks (some treeW) none pathW contW 1200 150,
        c.content ≠ [] ∧ pyStrip c.content = c.content ∧ c.start_line ≤ c.end_line) :=
  ⟨fun t h => (Option.some.inj h) ▸ (by decide : TSNode.wf treeW = true),
    chunk_invariants (some treeW) none pathW contW 1200 150
      (fun t h => (Option.some.inj h) ▸ (by decide : TSNode.wf treeW = true))⟩

/-! ### C4: the embedding client preserves input order -/

/-- Re-sorting a position-labelled permutation of the enumerated vectors by
the position label recovers the vectors in their original order. -/
theorem sort_recovers (vs : List Vec) (data : List RespItem)
    (hperm : data.Perm (vs.enum.map (fun iv => RespItem.mk iv.1 iv.2))) :
    (List.insertionSort (fun x y => x.index ≤ y.index) data).map (fun d => d.embedding)
      = vs := by
  haveI hT : IsTotal RespItem (fun x y => x.index ≤ y.index) := ⟨fun a b => le_total _ _⟩
  haveI hR : IsTrans RespItem (fun x y => x.index ≤ y.index) :=
    ⟨fun _ _ _ hab hbc => le_trans hab hbc⟩
  set target := vs.enum.map (fun iv => RespItem.mk iv.1 iv.2) with htarget
  set sorted := List.insertionSort (fun x y => x.index ≤ y.index) data with hsorted
  have hperm2 : sorted.Perm target :=
    (List.perm_insertionSort (fun x y => x.index ≤ y.index) data).trans hperm
  have hlen : sorted.length = vs.length := by
    have := hperm2.length_eq
    simpa [htarget] using this
  have hidx : sorted.map (fun d => d.index) = List.range vs.length := by
    have hp : (sorted.map (fun d => d.index)).Perm (List.range vs.length) := by
      have := hperm2.map (fun d => d.index)
      have htm : target.map (fun d => RespItem.index d) = List.range vs.length := by
        rw [htarget, List.map_map]
        have : ((fun d => RespItem.index d) ∘ fun iv : Nat × Vec => RespItem.mk iv.1 iv.2)
            = Prod.fst := by
          funext iv
          rfl
        rw [this, List.enum_map_fst]
      rw [htm] at this
      exact this
    have hs1 : List.Sorted (· ≤ ·) (sorted.map (fun d => d.index)) :=
      List.pairwise_map.mpr (List.sorted_insertionSort _ data)
    have hs2 : List.Sorted (· ≤ ·) (List.range vs.length) := List.pairwise_le_range _
    exact List.eq_of_perm_of_sorted hp hs1 hs2
  have htargetn : ∀ (n : Nat) (hn : n < vs.length),
      target[n]? = some (RespItem.mk n vs[n]) := by
    intro n hn
    rw [htarget, List.getElem?_map]
    have hlen2 : n < vs.enum.length := by simpa [List.enum_length] using hn
    rw [List.getElem?_eq_getElem hlen2, List.getElem_enum]
    rfl
  have hmain : sorted = target := by
    apply List.ext_getElem?
    intro n
    by_cases hn : n < vs.length
    · have h1 : n < sorted.length := by rw [hlen]; exact hn
      rw [List.getElem?_eq_getElem h1, htargetn n hn]
      congr 1
      have hidxn : (sorted.get ⟨n, h1⟩).index = n := by
        have hsome : (sorted.map (fun d => d.index))[n]? = some n := by
          rw [hidx]
          have hr : n < (List.range vs.length).length := by simpa using hn
          rw [List.getElem?_eq_getElem hr, List.getElem_range]
        rw [List.getElem?_map, List.getElem?_eq_getElem h1] at hsome
        simpa using hsome
      have hmem : sorted.get ⟨n, h1⟩ ∈ target := hperm2.subset (List.get_mem _ _ _)
      rw [htarget, List.mem_map] at hmem
      obtain ⟨iv, hiv, he⟩ := hmem
      have hiv2 := List.mem_enum_iff_getElem?.mp hiv
      have hfst : iv.1 = n := by
        rw [← he] at hidxn
        exact hidxn
      rw [hfst] at hiv2
      rw [List.getElem?_eq_getElem hn] at hiv2
      have hsnd : iv.2 = vs[n] := (Option.some.inj hiv2).symm
      rw [show (sorted[n] : RespItem) = sorted.get ⟨n, h1⟩ from rfl]
      rw [← he, hfst, hsnd]
    · have hb1 : sorted.length ≤ n := by omega
      have hb2 : target.length ≤ n := by
        rw [htarget]
        simp only [List.length_map, List.enum_length]
        omega
      rw [List.getElem?_eq_none hb1, List.getElem?_eq_none hb2]
  rw [hmain, htarget, List.map_map]
  have : ((fun d => RespItem.embedding d) ∘ fun iv : Nat × Vec => RespItem.mk iv.1 iv.2)
      = Prod.snd := by
    funext iv
    rfl
  rw [this, List.enum_map_snd]

/-- The batches rebuild the original text list. -/
theorem toBatchesGo_flatten (bs : Nat) :
    ∀ (fuel : Nat) (l : List (List Char)), l.length ≤ fuel →
      (toBatchesGo bs fuel l).flatten = l := by
  intro fuel
  induction fuel with
  | zero =>
    intro l hl
    cases l with
    | nil => rfl
    | cons t ts => simp at hl
  | succ f ih =>
    intro l hl
    cases l with
    | nil => rfl
    | cons t ts =>
      unfold toBatchesGo
      rw [List.flatten_cons]
      have hd : ((t :: ts).drop (max 1 bs)).length ≤ f := by
        have hl2 : ts.length + 1 ≤ f + 1 := by simpa using hl
        rw [List.length_drop]
        simp only [List.length_cons]
        omega
      rw [ih _ hd]
      exact List.take_append_drop _ _

theorem toBatches_flatten (bs : Nat) (texts : List (List Char)) :
    (toBatches bs texts).flatten = texts :=
  toBatchesGo_flatten bs texts.length texts (le_refl _)

/-- Processing a batch list where every batch's first provider call returns a
permuted enumeration of that batch's embeddings yields exactly the
concatenated embeddings, in input order. -/
theorem embedBatches_maps (p : Provider) (mr : Nat) (rb : ℚ) (f : List Char → Vec) :
    ∀ (bs : List (List (List Char))) (idx : Nat),
      (∀ b (hb : b < bs.length), ∃ data,
          p (idx + b) 0 = ProviderResp.ok data ∧
          data.Perm (((bs.get ⟨b, hb⟩).map f).enum.map (fun iv => RespItem.mk iv.1 iv.2))) →
      (embedBatches p mr rb bs idx).1 = some (bs.flatten.map f) := by
  intro bs
  induction bs with
  | nil => intro idx _; rfl
  | cons batch rest ih =>
    intro idx h
    obtain ⟨data, hp, hperm⟩ := h 0 (by simp)
    rw [Nat.add_zero] at hp
    have hrest := ih (idx + 1) (fun b hb => by
      obtain ⟨d2, hp2, hperm2⟩ := h (b + 1) (by simpa using Nat.succ_lt_succ hb)
      refine ⟨d2, ?_, hperm2⟩
      rw [← hp2]
      congr 1
      omega)
    unfold embedBatches
    have hal : attemptLoop p idx rb mr 0 = (some data, [EmbedEvent.call idx 0]) := by
      cases mr with
      | zero => unfold attemptLoop; rw [hp]
      | succ m => unfold attemptLoop; rw [hp]
    rw [hal]
    cases hres : embedBatches p mr rb rest (idx + 1) with
    | mk o2 ev2 =>
      rw [hres] at hrest
      simp only at hrest
      subst hrest
      simp only
      rw [sort_recovers (batch.map f) data hperm]
      rw [List.flatten_cons, List.map_append]

/-- C4: for every non-empty input, when the provider answers each batch with
a (possibly out-of-order) position-labelled permutation of that batch's
embeddings, `embed_texts_openai` returns a list of the same length whose
`i`-th element is the embedding of `texts[i]` — results are re-sorted to the
original input order. -/
theorem embed_preserves_input_order (p : Provider) (f : List Char → Vec)
    (texts : List (List Char)) (bs mr : Nat) (rb : ℚ)
    (hne : texts ≠ [])
    (hp : ∀ b (hb : b < (toBatches bs texts).length), ∃ data,
        p b 0 = ProviderResp.ok data ∧
        data.Perm ((((toBatches bs texts).get ⟨b, hb⟩).map f).enum.map
          (fun iv => RespItem.mk iv.1 iv.2))) :
    ∃ out, (embed_texts_openai p texts bs mr rb).1 = some out
      ∧ out.length = texts.length
      ∧ ∀ i : Nat, out[i]? = (texts[i]?).map f := by
  refine ⟨texts.map f, ?_, by simp, fun i => by rw [List.getElem?_map]⟩
  unfold embed_texts_openai
  rw [if_neg hne]
  simp only
  have := embedBatches_maps p mr rb f (toBatches bs texts) 0 (fun b hb => by
    obtain ⟨d, hpd, hperm⟩ := hp b hb
    exact ⟨d, by simpa using hpd, hperm⟩)
  rw [this, toBatches_flatten]

/-- Witness for C4: two texts in one batch, provider answering with the
labels swapped; the result pairs each text with its own embedding. -/
theorem embed_preserves_input_order_witness :
    (["x".toList, "y".toList] ≠ []
      ∧ ∀ b (hb : b < (toBatches 64 ["x".toList, "y".toList]).length), ∃ data,
          provSwapXY b 0 = ProviderResp.ok data ∧
          data.Perm ((((toBatches 64 ["x".toList, "y".toList]).get ⟨b, hb⟩).map fXY).enum.map
            (fun iv => RespItem.mk iv.1 iv.2)))
    ∧ (∃ out, (embed_texts_openai provSwapXY ["x".toList, "y".toList] 64 3 (3 / 2)).1 = some out
      ∧ out.length = (["x".toList, "y".toList] : List (List Char)).length
      ∧ ∀ i : Nat, out[i]? = ((["x".toList, "y".toList] : List (List Char))[i]?).map fXY) :=
  ⟨⟨by decide, by
      intro b hb
      have hlen1 : (toBatches 64 ["x".toList, "y".toList]).length = 1 := by decide
      have hb1 : b = 0 := by omega
      subst hb1
      refine ⟨[⟨1, [(2 : ℚ)]⟩, ⟨0, [(1 : ℚ)]⟩], by decide, ?_⟩
      have hget : (toBatches 64 ["x".toList, "y".toList]).get ⟨0, hb⟩
          = ["x".toList, "y".toList] := rfl
      rw [hget]
      decide⟩,
    embed_preserves_input_order provSwapXY fXY ["x".toList, "y".toList] 64 3 (3 / 2)
      (by decide)
      (by
        intro b hb
        have hlen1 : (toBatches 64 ["x".toList, "y".toList]).length = 1 := by decide
        have hb1 : b = 0 := by omega
        subst hb1
        refine ⟨[⟨1, [(2 : ℚ)]⟩, ⟨0, [(1 : ℚ)]⟩], by decide, ?_⟩
        have hget : (toBatches 64 ["x".toList, "y".toList]).get ⟨0, hb⟩
            = ["x".toList, "y".toList] := rfl
        rw [hget]
        decide)⟩

/-! ### C8: bounded retries with exponential backoff, abort on exhaustion -/

/-- The retry loop reports the raised exception exactly when every allowed
attempt fails. -/
theorem attemptLoop_none_iff (p : Provider) (b : Nat) (rb : ℚ) :
    ∀ (rem a : Nat),
      (attemptLoop p b rb rem a).1 = none
        ↔ ∀ k, k ≤ rem → p b (a + k) = ProviderResp.fail := by
  intro rem
  induction rem with
  | zero =>
    intro a
    unfold attemptLoop
    cases hpa : p b a with
    | ok data =>
      simp only
      constructor
      · intro h
        cases h
      · intro h
        have := h 0 (le_refl 0)
        rw [Nat.add_zero, hpa] at this
        cases this
    | fail =>
      simp only
      constructor
      · intro _ k hk
        have hk0 : k = 0 := Nat.le_zero.mp hk
        subst hk0
        rw [Nat.add_zero]
        exact hpa
      · intro _
        trivial
  | succ rem ih =>
    intro a
    unfold attemptLoop
    cases hpa : p b a with
    | ok data =>
      simp only
      constructor
      · intro h
        cases h
      · intro h
        have := h 0 (by omega)
        rw [Nat.add_zero, hpa] at this
        cases this
    | fail =>
      simp only
      rw [ih (a + 1)]
      constructor
      · intro h k hk
        cases k with
        | zero =>
          rw [Nat.add_zero]
          exact hpa
        | succ k' =>
          have := h k' (by omega)
          rw [show a + 1 + k' = a + (k' + 1) by omega] at this
          exact this
      · intro h k hk
        have := h (k + 1) (by omega)
        rw [show a + (k + 1) = a + 1 + k by omega] at this
        exact this

/-- The batch loop raises exactly when some batch exhausts all
`max_retries + 1` attempts. -/
theorem embedBatches_none_iff (p : Provider) (mr : Nat) (rb : ℚ) :
    ∀ (bs : List (List (List Char))) (idx : Nat),
      (embedBatches p mr rb bs idx).1 = none
        ↔ ∃ b, b < bs.length ∧ ∀ k, k ≤ mr → p (idx + b) k = ProviderResp.fail := by
  intro bs
  induction bs with
  | nil =>
    intro idx
    simp [embedBatches]
  | cons batch rest ih =>
    intro idx
    unfold embedBatches
    cases h0 : attemptLoop p idx rb mr 0 with
    | mk o ev =>
      cases o with
      | none =>
        simp only
        constructor
        · intro _
          refine ⟨0, by simp, fun k hk => ?_⟩
          have hiff := (attemptLoop_none_iff p idx rb mr 0).mp (by rw [h0])
          have := hiff k hk
          rw [Nat.zero_add] at this
          rw [Nat.add_zero]
          exact this
        · intro _
          trivial
      | some data =>
        cases hres : embedBatches p mr rb rest (idx + 1) with
        | mk o2 ev2 =>
          have ihr := ih (idx + 1)
          rw [hres] at ihr
          cases o2 with
          | none =>
            simp only
            constructor
            · intro _
              obtain ⟨b, hb, hfail⟩ := ihr.mp rfl
              refine ⟨b + 1, by simpa using Nat.succ_lt_succ hb, fun k hk => ?_⟩
              have := hfail k hk
              rw [show idx + 1 + b = idx + (b + 1) by omega] at this
              exact this
            · intro _
              trivial
          | some vs =>
            simp only
            constructor
            · intro h
              cases h
            · intro h
              obtain ⟨b, hb, hfail⟩ := h
              cases b with
              | zero =>
                have hnone : (attemptLoop p idx rb mr 0).1 = none := by
                  rw [attemptLoop_none_iff]
                  intro k hk
                  have := hfail k hk
                  rw [Nat.add_zero] at this
                  rw [Nat.zero_add]
                  exact this
                rw [h0] at hnone
                cases hnone
              | succ b' =>
                have hrest : ∃ b, b < rest.length ∧ ∀ k, k ≤ mr →
                    p (idx + 1 + b) k = ProviderResp.fail := by
                  refine ⟨b', by simpa using Nat.lt_of_succ_lt_succ hb, fun k hk => ?_⟩
                  have := hfail k hk
                  rw [show idx + (b' + 1) = idx + 1 + b' by omega] at this
                  exact this
                exact absurd (ihr.mpr hrest) (by simp)

/-- Every sleep of the retry loop is a backoff of schedule position between
`a + 1` and `a + rem`. -/
theorem attemptLoop_sleep (p : Provider) (b : Nat) (rb : ℚ) :
    ∀ (rem a : Nat) (q : ℚ), EmbedEvent.sleep q ∈ (attemptLoop p b rb rem a).2 →
      ∃ k, a + 1 ≤ k ∧ k ≤ a + rem ∧ q = sleepSeconds rb k := by
  intro rem
  induction rem with
  | zero =>
    intro a q hq
    unfold attemptLoop at hq
    cases hpa : p b a with
    | ok data => rw [hpa] at hq; simp at hq
    | fail => rw [hpa] at hq; simp at hq
  | succ rem ih =>
    intro a q hq
    unfold attemptLoop at hq
    cases hpa : p b a with
    | ok data => rw [hpa] at hq; simp at hq
    | fail =>
      rw [hpa] at hq
      simp only at hq
      rw [List.mem_cons] at hq
      cases hq with
      | inl h => simp at h
      | inr h =>
        rw [List.mem_cons] at h
        cases h with
        | inl h2 =>
          have hq2 : q = sleepSeconds rb (a + 1) := by
            injection h2
          exact ⟨a + 1, le_refl _, by omega, hq2⟩
        | inr h2 =>
          obtain ⟨k, hk1, hk2, hk3⟩ := ih (a + 1) q h2
          exact ⟨k, by omega, by omega, hk3⟩

/-- Every sleep of the whole batch loop is a backoff of schedule position
between 1 and `max_retries`. -/
theorem embedBatches_sleep (p : Provider) (mr : Nat) (rb : ℚ) :
    ∀ (bs : List (List (List Char))) (idx : Nat) (q : ℚ),
      EmbedEvent.sleep q ∈ (embedBatches p mr rb bs idx).2 →
      ∃ k, 1 ≤ k ∧ k ≤ mr ∧ q = sleepSeconds rb k := by
  intro bs
  induction bs with
  | nil => intro idx q hq; simp [embedBatches] at hq
  | cons batch rest ih =>
    intro idx q hq
    unfold embedBatches at hq
    cases h0 : attemptLoop p idx rb mr 0 with
    | mk o ev =>
      rw [h0] at hq
      have hev : EmbedEvent.sleep q ∈ ev →
          ∃ k, 1 ≤ k ∧ k ≤ mr ∧ q = sleepSeconds rb k := by
        intro h
        obtain ⟨k, hk1, hk2, hk3⟩ := attemptLoop_sleep p idx rb mr 0 q (by rw [h0]; exact h)
        exact ⟨k, by omega, by omega, hk3⟩
      cases o with
      | none =>
        simp only at hq
        exact hev hq
      | some data =>
        cases hres : embedBatches p mr rb rest (idx + 1) with
        | mk o2 ev2 =>
          rw [hres] at hq
          have hq2 : EmbedEvent.sleep q ∈ ev ++ ev2 := by
            cases o2 with
            | none => simpa using hq
            | some vs => simpa using hq
          rw [List.mem_append] at hq2
          cases hq2 with
          | inl h => exact hev h
          | inr h => exact ih (idx + 1) q (by rw [hres]; exact h)

/-- The backoff schedule grows exponentially: each sleep is at least the
doubling term `rb * 2^(a-1)`, and the schedule strictly increases. -/
theorem sleepSeconds_facts (rb : ℚ) (hrb : 0 < rb) :
    ∀ a : Nat, 1 ≤ a → rb * 2 ^ (a - 1) ≤ sleepSeconds rb a
      ∧ sleepSeconds rb a < sleepSeconds rb (a + 1) := by
  intro a ha
  constructor
  · unfold sleepSeconds
    have h10 : 0 ≤ (a : ℚ) / 10 := by positivity
    linarith
  · unfold sleepSeconds
    have hpow : (2 : ℚ) ^ (a + 1 - 1) = 2 * 2 ^ (a - 1) := by
      have h1 : a + 1 - 1 = (a - 1) + 1 := by omega
      rw [h1, pow_succ']
    rw [hpow]
    have hcast : ((a + 1 : Nat) : ℚ) = (a : ℚ) + 1 := by push_cast; ring
    rw [hcast]
    have hpos : (0 : ℚ) < rb * 2 ^ (a - 1) := by positivity
    have hstep : rb * (2 * 2 ^ (a - 1)) = rb * 2 ^ (a - 1) + rb * 2 ^ (a - 1) := by ring
    rw [hstep]
    have hdiv : ((a : ℚ) + 1) / 10 = (a : ℚ) / 10 + 1 / 10 := by ring
    rw [hdiv]
    linarith

/-- C8: a batch's provider failures are retried with the exponentially
growing backoff schedule `sleepSeconds`; the whole embedding raises exactly
when some batch fails all `max_retries + 1` attempts, and the raised result
carries no vectors for the already-embedded batches. -/
theorem embed_retry_abort (p : Provider) (texts : List (List Char)) (bs mr : Nat) (rb : ℚ)
    (hne : texts ≠ []) (hrb : 0 < rb) :
    ((embed_texts_openai p texts bs mr rb).1 = none
      ↔ ∃ b, b < (toBatches bs texts).length ∧ ∀ k, k ≤ mr → p b k = ProviderResp.fail)
    ∧ (∀ q : ℚ, EmbedEvent.sleep q ∈ (embed_texts_openai p texts bs mr rb).2 →
        ∃ a, 1 ≤ a ∧ a ≤ mr ∧ q = sleepSeconds rb a)
    ∧ (∀ a : Nat, 1 ≤ a → rb * 2 ^ (a - 1) ≤ sleepSeconds rb a
        ∧ sleepSeconds rb a < sleepSeconds rb (a + 1)) := by
  refine ⟨?_, ?_, fun a ha => sleepSeconds_facts rb hrb a ha⟩
  · unfold embed_texts_openai
    rw [if_neg hne]
    simp only
    have := embedBatches_none_iff p mr rb (toBatches bs texts) 0
    simpa using this
  · unfold embed_texts_openai
    rw [if_neg hne]
    simp only
    intro q hq
    rw [List.mem_cons] at hq
    cases hq with
    | inl h => simp at h
    | inr h => exact embedBatches_sleep p mr rb (toBatches bs texts) 0 q h

/-- Witness for C8: a single text with a provider that always fails, two
allowed retries, backoff 1.5s. -/
theorem embed_retry_abort_witness :
    ((["x".toList] : List (List Char)) ≠ [] ∧ (0 : ℚ) < 3 / 2)
    ∧ (((embed_texts_openai provFail ["x".toList] 64 2 (3 / 2)).1 = none
        ↔ ∃ b, b < (toBatches 64 ["x".toList]).length
            ∧ ∀ k, k ≤ 2 → provFail b k = ProviderResp.fail)
      ∧ (∀ q : ℚ, EmbedEvent.sleep q ∈ (embed_texts_openai provFail ["x".toList] 64 2 (3 / 2)).2 →
          ∃ a, 1 ≤ a ∧ a ≤ 2 ∧ q = sleepSeconds (3 / 2) a)
      ∧ (∀ a : Nat, 1 ≤ a → (3 / 2 : ℚ) * 2 ^ (a - 1) ≤ sleepSeconds (3 / 2) a
          ∧ sleepSeconds (3 / 2) a < sleepSeconds (3 / 2) (a + 1))) :=
  ⟨⟨by decide, by norm_num⟩,
    embed_retry_abort provFail ["x".toList] 64 2 (3 / 2) (by decide) (by norm_num)⟩

end Spec2Proof
